import Mathlib

/-!
Verification of the tiny-pastebin record store (Go) against its design spec.

The development shallowly embeds the two storage backends:

* `Boltstore` — the BoltDB-backed store (`internal/storage/boltstore`):
  two buckets modelled as association lists, the expiry bucket kept in
  ascending byte order of its keys (BoltDB buckets iterate keys in
  lexicographic byte order).
* `Sqlitestore` — the SQLite-backed store (`internal/storage/sqlitestore`):
  one table of rows; SQL `DATETIME` comparison is modelled chronologically.

Go `time.Time` is modelled by `GoTime` (an instant in nanoseconds since the
Unix epoch, plus a location label); `[]byte` values are `List Nat` with each
element a byte.  Machine-integer casts are explicit `% 2 ^ 64` operations.
Context cancellation, I/O-level failures and JSON encode/decode failures are
outside the model: the functions embed the code path on which the underlying
engine succeeds (serialization is the identity on the stored record).
-/

namespace TinyPaste

/-- Model of Go `time.Time`: `ns` is the instant, counted in nanoseconds from
the Unix epoch (`Int`, so pre-epoch instants are negative), and `loc` is the
location label (Go's `Time.Location`); `"UTC"` is the UTC location. -/
structure GoTime where
  ns : Int
  loc : String
deriving DecidableEq, Repr

/-- The instant of Go's zero `time.Time` (January 1, year 1, 00:00:00 UTC),
in nanoseconds relative to the Unix epoch: `-62135596800 * 10^9`. -/
def goZeroNs : Int := -62135596800000000000

namespace GoTime

/-- Go `Time.IsZero`: whether the instant is the zero time's instant. -/
def IsZero (t : GoTime) : Bool := t.ns == goZeroNs

/-- Go `Time.UTC`: same instant, location set to UTC. -/
def UTC (t : GoTime) : GoTime := { t with loc := "UTC" }

/-- The zero value of Go `time.Time`. -/
def zero : GoTime := ⟨goZeroNs, "UTC"⟩

end GoTime

/-- Model of `storage.Paste` (`internal/storage/storage.go`).  The Go field
`Syntax` is called `Syn` here; all other field names are the source's. -/
structure Paste where
  ID : String
  Content : String
  Syn : String
  CreatedAt : GoTime
  ExpiresAt : GoTime
  PasswordHash : String
  Size : Int
deriving DecidableEq, Repr

/-- `storage.Paste.HasExpiration`: the paste has an expiry set. -/
def Paste.HasExpiration (p : Paste) : Bool := !p.ExpiresAt.IsZero

/-- The store's error outcomes: `notFound` models `storage.ErrNotFound`,
`nilPaste` models the `errors.New ("paste is nil")` invalid-argument error
returned by both backends' `Save`. -/
inductive StoreErr where
  | notFound
  | nilPaste
deriving DecidableEq, Repr

/-- Both backends begin `Save` by normalizing the caller's record in place:
`paste.CreatedAt = paste.CreatedAt.UTC(); paste.ExpiresAt = paste.ExpiresAt.UTC()`. -/
def normalizePaste (p : Paste) : Paste :=
  { p with CreatedAt := p.CreatedAt.UTC, ExpiresAt := p.ExpiresAt.UTC }

/-! ### Byte strings and big-endian encoding -/

/-- The bytes of a Go string (`[]byte(s)`).  Ids produced by the id generator
are ASCII, where UTF-8 bytes coincide with code points; we use the code-point
list, which orders and distinguishes strings exactly as UTF-8 bytes do. -/
def strBytes (s : String) : List Nat := s.data.map Char.toNat

/-- Big-endian base-256 digits of `n`, `k` bytes wide (most significant
first); `beBytes 8 n` is `binary.BigEndian.PutUint64`. -/
def beBytes : Nat → Nat → List Nat
  | 0, _ => []
  | k + 1, n => (n / 256 ^ k % 256) :: beBytes k n

/-- `binary.BigEndian.Uint64` on a byte list (the callers pass 8 bytes). -/
def beUint64 (bs : List Nat) : Nat := bs.foldl (fun acc b => acc * 256 + b) 0

/-- Lexicographic strict order on byte strings — the key order of BoltDB
buckets (`bytes.Compare < 0`). -/
def bytesLt : List Nat → List Nat → Bool
  | _, [] => false
  | [], _ :: _ => true
  | a :: as, b :: bs => if a < b then true else if b < a then false else bytesLt as bs

/-! ### Association-list maps

BoltDB buckets map byte keys to byte values; we model the paste bucket as an
association list from id to the (decoded) stored record, and the expiry
bucket as an association list from composite key to id kept sorted by
`bytesLt`.  `aget`/`aput`/`adel` are bucket `Get`/`Put`/`Delete` where key
order does not matter; `eput` is `Put` on the sorted expiry bucket. -/

/-- Bucket `Get`: first binding of the key, if any. -/
def aget {α β : Type} [DecidableEq α] : List (α × β) → α → Option β
  | [], _ => none
  | (k, v) :: rest, i => if k = i then some v else aget rest i

/-- Bucket `Put`: replace the binding of the key, or append a new one. -/
def aput {α β : Type} [DecidableEq α] : List (α × β) → α → β → List (α × β)
  | [], i, v => [(i, v)]
  | (k, w) :: rest, i, v => if k = i then (i, v) :: rest else (k, w) :: aput rest i v

/-- Bucket `Delete`: remove the bindings of the key (a no-op if absent). -/
def adel {α β : Type} [DecidableEq α] : List (α × β) → α → List (α × β)
  | [], _ => []
  | (k, w) :: rest, i => if k = i then adel rest i else (k, w) :: adel rest i

/-- `Put` on the expiry bucket, inserting at the key's sorted position
(replacing an equal key), so the list stays in BoltDB's key order. -/
def eput : List (List Nat × String) → List Nat → String → List (List Nat × String)
  | [], k, v => [(k, v)]
  | (k0, v0) :: rest, k, v =>
    if bytesLt k k0 then (k, v) :: (k0, v0) :: rest
    else if k = k0 then (k, v) :: rest
    else (k0, v0) :: eput rest k v

namespace Boltstore

/-- `boltstore.toTimestamp`: `0` for the zero time, else the uint64 cast of
`t.UTC().UnixNano()` (two's-complement, i.e. the value modulo `2 ^ 64`). -/
def toTimestamp (t : GoTime) : Nat :=
  if t.IsZero then 0 else (t.UTC.ns % (2 ^ 64 : Int)).toNat

/-- `boltstore.expireKey`: 8-byte big-endian timestamp followed by the id
bytes. -/
def expireKey (t : GoTime) (id : String) : List Nat :=
  beBytes 8 (toTimestamp t) ++ strBytes id

/-- The two buckets of the BoltDB store: `pastes` (primary, id ↦ record) and
`expires` (secondary index, composite key ↦ id, in ascending key order). -/
structure State where
  pastes : List (String × Paste)
  expires : List (List Nat × String)
deriving DecidableEq, Repr

/-- A freshly opened store: both buckets empty. -/
def State.empty : State := ⟨[], []⟩

/-- `boltstore.Store.Save`.  Returns the store after the call together with
the result; the `.ok` payload is the caller's record after the in-place UTC
normalization `Save` performs on it.  On error the transaction leaves the
store unchanged. -/
def Save (s : State) (paste : Option Paste) : State × Except StoreErr Paste :=
  match paste with
  | none => (s, .error .nilPaste)
  | some p0 =>
    let p := normalizePaste p0
    let e1 :=
      match aget s.pastes p.ID with
      | some prev =>
        if prev.HasExpiration then adel s.expires (expireKey prev.ExpiresAt prev.ID)
        else s.expires
      | none => s.expires
    let p1 := aput s.pastes p.ID p
    let e2 := if p.HasExpiration then eput e1 (expireKey p.ExpiresAt p.ID) p.ID else e1
    (⟨p1, e2⟩, .ok p)

/-- `boltstore.Store.Get`: the stored record, or `notFound`. -/
def Get (s : State) (id : String) : Except StoreErr Paste :=
  match aget s.pastes id with
  | none => .error .notFound
  | some p => .ok p

/-- `boltstore.Store.Delete`: fails `notFound` when the primary entry is
missing; otherwise removes the index entry (when the record has an expiry)
and the primary entry in one transaction. -/
def Delete (s : State) (id : String) : State × Except StoreErr Unit :=
  match aget s.pastes id with
  | none => (s, .error .notFound)
  | some p =>
    let e1 :=
      if p.HasExpiration then adel s.expires (expireKey p.ExpiresAt p.ID) else s.expires
    (⟨adel s.pastes id, e1⟩, .ok ())

/-- The cursor loop of `boltstore.Store.DeleteExpired`: walk the expiry
bucket from its first key; stop at the first key whose 8-byte prefix decodes
above the cutoff; otherwise delete the primary record named by the entry's
value, delete the entry, count it, and continue.  Returns the paste bucket,
the remaining index entries, and the count. -/
def sweepLoop (pB : List (String × Paste)) :
    List (List Nat × String) → Nat → List (String × Paste) × List (List Nat × String) × Nat
  | [], _ => (pB, [], 0)
  | (k, v) :: rest, cutoff =>
    if cutoff < beUint64 (k.take 8) then (pB, (k, v) :: rest, 0)
    else
      let out := sweepLoop (adel pB v) rest cutoff
      (out.1, out.2.1, out.2.2 + 1)

/-- `boltstore.Store.DeleteExpired`: sweep with cutoff
`toTimestamp (before.UTC ())`, returning the new state and the count. -/
def DeleteExpired (s : State) (before : GoTime) : State × Nat :=
  let cutoff := toTimestamp before.UTC
  let out := sweepLoop s.pastes s.expires cutoff
  (⟨out.1, out.2.1⟩, out.2.2)

/-- One store call, as fed to `runOps`; `Get` is read-only and omitted. -/
inductive Op where
  | save (paste : Option Paste)
  | del (id : String)
  | sweep (before : GoTime)

/-- The store state reached by one call (results discarded). -/
def applyOp (s : State) : Op → State
  | .save p => (Save s p).1
  | .del id => (Delete s id).1
  | .sweep t => (DeleteExpired s t).1

/-- The store state after a sequence of calls on a freshly opened store. -/
def runOps (ops : List Op) : State := ops.foldl applyOp State.empty

end Boltstore

namespace Sqlitestore

/-- One row of the `pastes` table (`internal/storage/sqlitestore`); `none`
models SQL `NULL` in the nullable columns. -/
structure Row where
  id : String
  content : String
  syn : String
  createdAt : GoTime
  expiresAt : Option GoTime
  passwordHash : Option String
  size : Int
deriving DecidableEq, Repr

/-- The table: a list of rows (`id` is the primary key). -/
abbrev Table := List Row

/-- `sqlitestore.nullableTime`: `NULL` for the zero time, else the UTC time. -/
def nullableTime (t : GoTime) : Option GoTime :=
  if t.IsZero then none else some t.UTC

/-- `sqlitestore.nullString`: `NULL` for the empty string. -/
def nullString (s : String) : Option String :=
  if s = "" then none else some s

/-- `SELECT ... WHERE id = ?`: the row with the given primary key. -/
def findRow (rows : Table) (id : String) : Option Row :=
  rows.find? (fun r => r.id == id)

/-- `INSERT ... ON CONFLICT(id) DO UPDATE SET ...`: replace the row with the
same id, or append. -/
def upsert : Table → Row → Table
  | [], r => [r]
  | r0 :: rest, r => if r0.id = r.id then r :: rest else r0 :: upsert rest r

/-- `sqlitestore.Store.Save`: nil check, in-place UTC normalization of the
caller's record, then the upsert.  The `.ok` payload is the caller's record
after the normalization. -/
def Save (rows : Table) (paste : Option Paste) : Table × Except StoreErr Paste :=
  match paste with
  | none => (rows, .error .nilPaste)
  | some p0 =>
    let p := normalizePaste p0
    (upsert rows ⟨p.ID, p.Content, p.Syn, p.CreatedAt,
        nullableTime p.ExpiresAt, nullString p.PasswordHash, p.Size⟩, .ok p)

/-- `sqlitestore.Store.Get`: scan the row into a `Paste`, mapping `NULL`
expiry to the zero time and `NULL` password hash to the empty string, with
timestamps taken UTC. -/
def Get (rows : Table) (id : String) : Except StoreErr Paste :=
  match findRow rows id with
  | none => .error .notFound
  | some r =>
    .ok { ID := r.id
          Content := r.content
          Syn := r.syn
          CreatedAt := r.createdAt.UTC
          ExpiresAt := match r.expiresAt with
            | some t => t.UTC
            | none => GoTime.zero
          PasswordHash := r.passwordHash.getD ""
          Size := r.size }

/-- `sqlitestore.Store.Delete` (`DELETE FROM pastes WHERE id = ?`): remove
the row; `notFound` when no row was affected. -/
def Delete (rows : Table) (id : String) : Table × Except StoreErr Unit :=
  let kept := rows.filter (fun r => !(r.id == id))
  if kept.length = rows.length then (rows, .error .notFound) else (kept, .ok ())

/-- The `WHERE` clause of `DeleteExpired`:
`expires_at IS NOT NULL AND expires_at <= ?`.  SQL timestamp comparison is
modelled chronologically (on instants). -/
def rowExpired (before : GoTime) (r : Row) : Bool :=
  match r.expiresAt with
  | none => false
  | some t => t.ns ≤ before.UTC.ns

/-- `sqlitestore.Store.DeleteExpired`: the range delete, returning the rows
affected. -/
def DeleteExpired (rows : Table) (before : GoTime) : Table × Nat :=
  let kept := rows.filter (fun r => !rowExpired before r)
  (kept, rows.length - kept.length)

end Sqlitestore

namespace Httpserver

/-- The per-invocation timeout `cleanOnce` puts on each `DeleteExpired` call
(`context.WithTimeout (ctx, 5*time.Second)`), in nanoseconds. -/
def cleanTimeoutNs : Int := 5 * 1000000000

/-- The default interval `StartJanitor` substitutes for a non-positive
argument (`time.Minute`), in nanoseconds. -/
def defaultIntervalNs : Int := 60 * 1000000000

/-- The tick interval the janitor's ticker actually fires on, per
`StartJanitor`: the argument, unless it is non-positive, in which case one
minute. -/
def effectiveInterval (interval : Int) : Int :=
  if interval ≤ 0 then defaultIntervalNs else interval

/-- A log line emitted by the janitor. -/
inductive LogEntry where
  | errLog (msg : String)
  | infoLog (msg : String) (count : Nat)
deriving DecidableEq, Repr

/-- `httpserver.cleanOnce`, as a function from the outcome of the
`DeleteExpired` call and the (possibly nil) logger to the log lines emitted:
an error is logged (when a logger is present) and swallowed; a successful
sweep logs only when it removed more than zero records.  Totality of this
function is the model of "never panics / never propagates". -/
def cleanOnce (sweepOutcome : Except String Nat) (logger : Option Unit) : List LogEntry :=
  match sweepOutcome with
  | .error e =>
    match logger with
    | some _ => [.errLog e]
    | none => []
  | .ok removed =>
    if removed > 0 then
      match logger with
      | some _ => [.infoLog "janitor removed expired pastes" removed]
      | none => []
    else []

/-- The janitor loop of `StartJanitor`, over the sweep outcomes of the ticks
that fire before cancellation: every tick runs `cleanOnce` and the loop
continues regardless of the outcome. -/
def janitorRun (ticks : List (Except String Nat)) (logger : Option Unit) : List LogEntry :=
  match ticks with
  | [] => []
  | outcome :: rest => cleanOnce outcome logger ++ janitorRun rest logger

end Httpserver

/-! ### Facts about the time model -/

theorem GoTime.utc_ns (t : GoTime) : t.UTC.ns = t.ns := rfl

theorem GoTime.utc_utc (t : GoTime) : t.UTC.UTC = t.UTC := rfl

theorem GoTime.isZero_utc (t : GoTime) : t.UTC.IsZero = t.IsZero := rfl

/-- A time representable as a non-negative 64-bit nanosecond count: at or
after the Unix epoch and within the `int64` range `Time.UnixNano` is defined
on. -/
def GoTime.InRange (t : GoTime) : Prop := 0 ≤ t.ns ∧ t.ns < 2 ^ 63

theorem GoTime.not_isZero_of_inRange {t : GoTime} (h : t.InRange) : t.IsZero = false := by
  have h0 := h.1
  simp only [GoTime.IsZero, beq_eq_false_iff_ne, ne_eq, goZeroNs]
  omega

theorem Boltstore.toTimestamp_of_inRange {t : GoTime} (h : t.InRange) :
    Boltstore.toTimestamp t = t.ns.toNat := by
  obtain ⟨h0, h1⟩ := h
  have hz : t.IsZero = false := GoTime.not_isZero_of_inRange ⟨h0, h1⟩
  simp only [Boltstore.toTimestamp, hz, Bool.false_eq_true, if_false, GoTime.utc_ns]
  have hp : (2 : Int) ^ 64 = 18446744073709551616 := by norm_num
  have hq : (2 : Int) ^ 63 = 9223372036854775808 := by norm_num
  rw [hp]
  rw [hq] at h1
  omega

theorem Boltstore.toTimestamp_lt (t : GoTime) : Boltstore.toTimestamp t < 2 ^ 64 := by
  unfold Boltstore.toTimestamp
  have hp : (2 : Int) ^ 64 = 18446744073709551616 := by norm_num
  have hn : (2 : Nat) ^ 64 = 18446744073709551616 := by norm_num
  split
  · omega
  · rw [hp, hn]
    omega

theorem Boltstore.toTimestamp_utc (t : GoTime) :
    Boltstore.toTimestamp t.UTC = Boltstore.toTimestamp t := by
  simp [Boltstore.toTimestamp, GoTime.isZero_utc, GoTime.utc_utc]

theorem Boltstore.toTimestamp_mono {t1 t2 : GoTime} (h1 : t1.InRange) (h2 : t2.InRange)
    (h : t1.ns ≤ t2.ns) :
    Boltstore.toTimestamp t1 ≤ Boltstore.toTimestamp t2 := by
  rw [Boltstore.toTimestamp_of_inRange h1, Boltstore.toTimestamp_of_inRange h2]
  omega

/-! ### Facts about the big-endian encoding and the byte order -/

theorem beBytes_length (k n : Nat) : (beBytes k n).length = k := by
  induction k generalizing n with
  | zero => rfl
  | succ k ih => simp [beBytes, ih]

theorem beBytes_mod (k n : Nat) : beBytes k (n % 256 ^ k) = beBytes k n := by
  induction k generalizing n with
  | zero => rfl
  | succ k ih =>
    simp only [beBytes, List.cons.injEq]
    constructor
    · have h1 : n % 256 ^ (k + 1) / 256 ^ k = n / 256 ^ k % 256 := by
        rw [pow_succ]
        exact Nat.mod_mul_right_div_self n (256 ^ k) 256
      rw [h1, Nat.mod_mod_of_dvd _ dvd_rfl]
    · have h2 : n % 256 ^ (k + 1) % 256 ^ k = n % 256 ^ k := by
        refine Nat.mod_mod_of_dvd n ?_
        rw [pow_succ]
        exact dvd_mul_right (256 ^ k) 256
      calc beBytes k (n % 256 ^ (k + 1))
          = beBytes k (n % 256 ^ (k + 1) % 256 ^ k) := (ih _).symm
        _ = beBytes k (n % 256 ^ k) := by rw [h2]
        _ = beBytes k n := ih n

theorem beBytes_foldl (k acc n : Nat) :
    (beBytes k n).foldl (fun a b => a * 256 + b) acc = acc * 256 ^ k + n % 256 ^ k := by
  induction k generalizing acc n with
  | zero => simp [beBytes, Nat.mod_one]
  | succ k ih =>
    simp only [beBytes, List.foldl_cons, ih]
    have h2 := Nat.div_add_mod (n % (256 ^ k * 256)) (256 ^ k)
    rw [Nat.mod_mul_right_div_self, Nat.mod_mod_of_dvd n (dvd_mul_right (256 ^ k) 256)] at h2
    rw [pow_succ]
    rw [← h2]
    ring

theorem beUint64_beBytes {n : Nat} (h : n < 2 ^ 64) : beUint64 (beBytes 8 n) = n := by
  unfold beUint64
  rw [beBytes_foldl]
  have h8 : (256 : Nat) ^ 8 = 2 ^ 64 := by norm_num
  rw [h8, Nat.zero_mul, Nat.zero_add, Nat.mod_eq_of_lt h]

theorem bytesLt_irrefl (a : List Nat) : bytesLt a a = false := by
  induction a with
  | nil => rfl
  | cons x xs ih => simp [bytesLt, ih]

theorem bytesLt_nil (a : List Nat) : bytesLt a [] = false := by
  cases a <;> rfl

theorem bytesLt_cons (a b : Nat) (as bs : List Nat) :
    bytesLt (a :: as) (b :: bs) =
      if a < b then true else if b < a then false else bytesLt as bs := rfl

theorem bytesLt_asymm : ∀ {a b : List Nat}, bytesLt a b = true → bytesLt b a = false
  | a, [], h => by rw [bytesLt_nil] at h; cases h
  | [], _ :: _, _ => bytesLt_nil _
  | a :: as, b :: bs, h => by
    rw [bytesLt_cons] at h
    rw [bytesLt_cons]
    by_cases h1 : a < b
    · rw [if_neg (by omega : ¬ b < a), if_pos h1]
    · rw [if_neg h1] at h
      by_cases h2 : b < a
      · rw [if_pos h2] at h; cases h
      · rw [if_neg h2] at h
        rw [if_neg h2, if_neg h1]
        exact bytesLt_asymm h

theorem bytesLt_trans : ∀ {a b c : List Nat},
    bytesLt a b = true → bytesLt b c = true → bytesLt a c = true
  | _, [], _, hab, _ => by rw [bytesLt_nil] at hab; cases hab
  | _, _ :: _, [], _, hbc => by rw [bytesLt_nil] at hbc; cases hbc
  | [], _ :: _, _ :: _, _, _ => rfl
  | a :: as, b :: bs, c :: cs, hab, hbc => by
    rw [bytesLt_cons] at hab hbc
    rw [bytesLt_cons]
    by_cases h1 : a < b
    · by_cases h2 : b < c
      · rw [if_pos (by omega : a < c)]
      · rw [if_neg h2] at hbc
        by_cases h3 : c < b
        · rw [if_pos h3] at hbc; cases hbc
        · rw [if_pos (by omega : a < c)]
    · rw [if_neg h1] at hab
      by_cases h1' : b < a
      · rw [if_pos h1'] at hab; cases hab
      · rw [if_neg h1'] at hab
        have hba : a = b := by omega
        subst hba
        by_cases h2 : a < c
        · rw [if_pos h2]
        · rw [if_neg h2] at hbc ⊢
          by_cases h3 : c < a
          · rw [if_pos h3] at hbc; cases hbc
          · rw [if_neg h3] at hbc ⊢
            exact bytesLt_trans hab hbc

theorem bytesLt_total : ∀ {a b : List Nat}, a ≠ b → bytesLt a b = true ∨ bytesLt b a = true
  | [], [], h => absurd rfl h
  | [], _ :: _, _ => Or.inl rfl
  | _ :: _, [], _ => Or.inr rfl
  | a :: as, b :: bs, h => by
    by_cases hab : a < b
    · exact Or.inl (by simp [bytesLt, hab])
    · by_cases hba : b < a
      · exact Or.inr (by simp [bytesLt, hba])
      · have hev : a = b := by omega
        subst hev
        have hne : as ≠ bs := fun he => h (by rw [he])
        rcases bytesLt_total hne with h1 | h1
        · exact Or.inl (by simp [bytesLt, h1])
        · exact Or.inr (by simp [bytesLt, h1])

theorem bytesLt_append : ∀ {a b : List Nat}, a.length = b.length →
    bytesLt a b = true → ∀ (x y : List Nat), bytesLt (a ++ x) (b ++ y) = true
  | [], [], _, h, _, _ => by rw [bytesLt_nil] at h; cases h
  | a :: as, b :: bs, hlen, h, x, y => by
    rw [bytesLt_cons] at h
    rw [List.cons_append, List.cons_append, bytesLt_cons]
    by_cases h1 : a < b
    · rw [if_pos h1]
    · rw [if_neg h1] at h ⊢
      by_cases h2 : b < a
      · rw [if_pos h2] at h; cases h
      · rw [if_neg h2] at h ⊢
        exact bytesLt_append (by simpa using hlen) h x y

theorem bytesLt_append_same : ∀ (a x y : List Nat),
    bytesLt (a ++ x) (a ++ y) = bytesLt x y
  | [], _, _ => rfl
  | a :: as, x, y => by
    simp only [List.cons_append, bytesLt, lt_irrefl, if_false]
    exact bytesLt_append_same as x y

theorem bytesLt_beBytes : ∀ {k n1 n2 : Nat}, n1 < n2 → n2 < 256 ^ k →
    bytesLt (beBytes k n1) (beBytes k n2) = true := by
  intro k
  induction k with
  | zero =>
    intro n1 n2 h12 h2
    simp only [pow_zero] at h2
    omega
  | succ k ih =>
    intro n1 n2 h12 h2
    simp only [beBytes, bytesLt]
    have hd1 : n1 / 256 ^ k < 256 := by
      apply Nat.div_lt_of_lt_mul
      calc n1 < 256 ^ (k + 1) := lt_trans h12 h2
        _ = 256 ^ k * 256 := pow_succ 256 k
    have hd2 : n2 / 256 ^ k < 256 := by
      apply Nat.div_lt_of_lt_mul
      calc n2 < 256 ^ (k + 1) := h2
        _ = 256 ^ k * 256 := pow_succ 256 k
    rw [Nat.mod_eq_of_lt hd1, Nat.mod_eq_of_lt hd2]
    have hle : n1 / 256 ^ k ≤ n2 / 256 ^ k := Nat.div_le_div_right (le_of_lt h12)
    by_cases hlt : n1 / 256 ^ k < n2 / 256 ^ k
    · simp [hlt]
    · have heq : n1 / 256 ^ k = n2 / 256 ^ k := by omega
      rw [heq]
      simp only [lt_irrefl, if_false]
      rw [← beBytes_mod k n1, ← beBytes_mod k n2]
      have e1 := Nat.div_add_mod n1 (256 ^ k)
      have e2 := Nat.div_add_mod n2 (256 ^ k)
      rw [← heq] at e2
      have hb : n2 % 256 ^ k < 256 ^ k := Nat.mod_lt _ (pow_pos (by norm_num) k)
      have hmlt : n1 % 256 ^ k < n2 % 256 ^ k := by omega
      exact ih hmlt hb

/-! ### Facts about expiry-index keys -/

theorem strBytes_inj {s1 s2 : String} (h : strBytes s1 = strBytes s2) : s1 = s2 := by
  simp only [strBytes] at h
  have hchar : Function.Injective Char.toNat := fun c1 c2 hc =>
    Char.eq_of_val_eq (UInt32.ext hc)
  have hd : s1.data = s2.data := List.map_injective_iff.mpr hchar h
  cases s1
  cases s2
  cases hd
  rfl

theorem expireKey_take8 (t : GoTime) (id : String) :
    (Boltstore.expireKey t id).take 8 = beBytes 8 (Boltstore.toTimestamp t) := by
  unfold Boltstore.expireKey
  rw [show (8 : Nat) = (beBytes 8 (Boltstore.toTimestamp t)).length from
    (beBytes_length 8 _).symm]
  exact List.take_left _ _

theorem beUint64_expireKey (t : GoTime) (id : String) :
    beUint64 ((Boltstore.expireKey t id).take 8) = Boltstore.toTimestamp t := by
  rw [expireKey_take8]
  exact beUint64_beBytes (Boltstore.toTimestamp_lt t)

theorem expireKey_inj {t1 t2 : GoTime} {id1 id2 : String}
    (h : Boltstore.expireKey t1 id1 = Boltstore.expireKey t2 id2) :
    Boltstore.toTimestamp t1 = Boltstore.toTimestamp t2 ∧ id1 = id2 := by
  unfold Boltstore.expireKey at h
  have hlen : (beBytes 8 (Boltstore.toTimestamp t1)).length
      = (beBytes 8 (Boltstore.toTimestamp t2)).length := by
    rw [beBytes_length, beBytes_length]
  obtain ⟨h1, h2⟩ := List.append_inj h hlen
  refine ⟨?_, strBytes_inj h2⟩
  have hts := congrArg beUint64 h1
  rwa [beUint64_beBytes (Boltstore.toTimestamp_lt t1),
    beUint64_beBytes (Boltstore.toTimestamp_lt t2)] at hts

theorem expireKey_lt {t1 t2 : GoTime}
    (h : Boltstore.toTimestamp t1 < Boltstore.toTimestamp t2) (id1 id2 : String) :
    bytesLt (Boltstore.expireKey t1 id1) (Boltstore.expireKey t2 id2) = true := by
  unfold Boltstore.expireKey
  apply bytesLt_append (by rw [beBytes_length, beBytes_length])
  apply bytesLt_beBytes h
  have h8 : (256 : Nat) ^ 8 = 2 ^ 64 := by norm_num
  rw [h8]
  exact Boltstore.toTimestamp_lt t2

theorem expireKey_ts_le {t1 t2 : GoTime} {id1 id2 : String}
    (h : bytesLt (Boltstore.expireKey t1 id1) (Boltstore.expireKey t2 id2) = true) :
    Boltstore.toTimestamp t1 ≤ Boltstore.toTimestamp t2 := by
  by_contra hlt
  push_neg at hlt
  have h2 := expireKey_lt hlt id2 id1
  have h3 := bytesLt_asymm h2
  rw [h] at h3
  cases h3

theorem expireKey_utc (t : GoTime) (id : String) :
    Boltstore.expireKey t.UTC id = Boltstore.expireKey t id := by
  unfold Boltstore.expireKey
  rw [Boltstore.toTimestamp_utc]

theorem normalizePaste_ID (p : Paste) : (normalizePaste p).ID = p.ID := rfl

theorem normalizePaste_hasExp (p : Paste) :
    (normalizePaste p).HasExpiration = p.HasExpiration := rfl

/-! ### Facts about the association-list maps -/

theorem aget_nil {α β : Type} [DecidableEq α] (j : α) : aget ([] : List (α × β)) j = none := rfl

theorem aget_cons {α β : Type} [DecidableEq α] (k : α) (v : β) (m : List (α × β)) (j : α) :
    aget ((k, v) :: m) j = if k = j then some v else aget m j := rfl

theorem aput_cons {α β : Type} [DecidableEq α] (k0 : α) (v0 : β) (m : List (α × β))
    (k : α) (v : β) :
    aput ((k0, v0) :: m) k v = if k0 = k then (k, v) :: m else (k0, v0) :: aput m k v := rfl

theorem adel_cons {α β : Type} [DecidableEq α] (k0 : α) (v0 : β) (m : List (α × β)) (k : α) :
    adel ((k0, v0) :: m) k = if k0 = k then adel m k else (k0, v0) :: adel m k := rfl

theorem aget_aput {α β : Type} [DecidableEq α] (m : List (α × β)) (k : α) (v : β) (j : α) :
    aget (aput m k v) j = if k = j then some v else aget m j := by
  induction m with
  | nil => rfl
  | cons e rest ih =>
    obtain ⟨k0, v0⟩ := e
    rw [aput_cons]
    by_cases h0 : k0 = k
    · subst h0
      by_cases hj : k0 = j <;> simp [aget_cons, hj]
    · by_cases hj : k0 = j
      · subst hj
        have hk : ¬ k = k0 := fun h => h0 h.symm
        simp [aget_cons, h0, hk, ih]
      · simp [aget_cons, h0, hj, ih]

theorem aget_adel {α β : Type} [DecidableEq α] (m : List (α × β)) (k : α) (j : α) :
    aget (adel m k) j = if k = j then none else aget m j := by
  induction m with
  | nil => simp [adel, aget_nil]
  | cons e rest ih =>
    obtain ⟨k0, v0⟩ := e
    rw [adel_cons]
    by_cases h0 : k0 = k
    · subst h0
      by_cases hj : k0 = j
      · subst hj
        simp [ih]
      · simp [aget_cons, hj, ih]
    · by_cases hj : k0 = j
      · subst hj
        have hk : ¬ k = k0 := fun h => h0 h.symm
        simp [aget_cons, h0, hk, ih]
      · simp [aget_cons, h0, hj, ih]

theorem adel_sublist {α β : Type} [DecidableEq α] (m : List (α × β)) (k : α) :
    (adel m k).Sublist m := by
  induction m with
  | nil => simp [adel]
  | cons e rest ih =>
    obtain ⟨k0, v0⟩ := e
    rw [adel_cons]
    by_cases h0 : k0 = k
    · rw [if_pos h0]
      exact ih.cons _
    · rw [if_neg h0]
      exact ih.cons₂ _

theorem mem_adel {α β : Type} [DecidableEq α] {m : List (α × β)} {k : α} {e : α × β} :
    e ∈ adel m k ↔ e ∈ m ∧ e.1 ≠ k := by
  induction m with
  | nil => simp [adel]
  | cons e0 rest ih =>
    obtain ⟨k0, v0⟩ := e0
    rw [adel_cons]
    by_cases h0 : k0 = k
    · subst h0
      rw [if_pos rfl, ih]
      simp only [List.mem_cons]
      constructor
      · rintro ⟨hm, hne⟩
        exact ⟨Or.inr hm, hne⟩
      · rintro ⟨hm | hm, hne⟩
        · exact absurd (by rw [hm]) hne
        · exact ⟨hm, hne⟩
    · rw [if_neg h0]
      simp only [List.mem_cons, ih]
      constructor
      · rintro (he | ⟨hm, hne⟩)
        · subst he
          exact ⟨Or.inl rfl, h0⟩
        · exact ⟨Or.inr hm, hne⟩
      · rintro ⟨he | hm, hne⟩
        · exact Or.inl he
        · exact Or.inr ⟨hm, hne⟩

theorem aget_mem {α β : Type} [DecidableEq α] {m : List (α × β)} {j : α} {v : β}
    (h : aget m j = some v) : (j, v) ∈ m := by
  induction m with
  | nil => cases h
  | cons e rest ih =>
    obtain ⟨k0, v0⟩ := e
    rw [aget_cons] at h
    by_cases h0 : k0 = j
    · subst h0
      rw [if_pos rfl] at h
      cases h
      exact List.mem_cons_self _ _
    · rw [if_neg h0] at h
      exact List.mem_cons_of_mem _ (ih h)

theorem aget_eq_none {α β : Type} [DecidableEq α] {m : List (α × β)} {j : α} :
    aget m j = none ↔ j ∉ m.map Prod.fst := by
  induction m with
  | nil => simp [aget_nil]
  | cons e rest ih =>
    obtain ⟨k0, v0⟩ := e
    rw [aget_cons]
    by_cases h0 : k0 = j
    · subst h0
      simp
    · rw [if_neg h0, ih]
      simp only [List.map_cons, List.mem_cons]
      constructor
      · intro h hor
        rcases hor with h1 | h1
        · exact h0 h1.symm
        · exact h h1
      · intro h h1
        exact h (Or.inr h1)

theorem aget_of_mem_nodup {α β : Type} [DecidableEq α] {m : List (α × β)} {j : α} {v : β}
    (hnd : (m.map Prod.fst).Nodup) (h : (j, v) ∈ m) : aget m j = some v := by
  induction m with
  | nil => cases h
  | cons e rest ih =>
    obtain ⟨k0, v0⟩ := e
    simp only [List.map_cons, List.nodup_cons] at hnd
    rcases List.mem_cons.mp h with he | hm
    · cases he
      rw [aget_cons, if_pos rfl]
    · rw [aget_cons]
      have hk : k0 ≠ j := by
        intro hv
        subst hv
        exact hnd.1 (List.mem_map.mpr ⟨(k0, v), hm, rfl⟩)
      rw [if_neg hk]
      exact ih hnd.2 hm

theorem keys_aput {α β : Type} [DecidableEq α] (m : List (α × β)) (k : α) (v : β) (j : α) :
    j ∈ (aput m k v).map Prod.fst ↔ j = k ∨ j ∈ m.map Prod.fst := by
  induction m with
  | nil => simp [aput]
  | cons e rest ih =>
    obtain ⟨k0, v0⟩ := e
    rw [aput_cons]
    by_cases h0 : k0 = k
    · subst h0
      simp
    · rw [if_neg h0]
      simp only [List.map_cons, List.mem_cons, ih]
      tauto

theorem nodup_keys_aput {α β : Type} [DecidableEq α] {m : List (α × β)}
    (h : (m.map Prod.fst).Nodup) (k : α) (v : β) : ((aput m k v).map Prod.fst).Nodup := by
  induction m with
  | nil => simp [aput]
  | cons e rest ih =>
    obtain ⟨k0, v0⟩ := e
    rw [aput_cons]
    simp only [List.map_cons, List.nodup_cons] at h
    by_cases h0 : k0 = k
    · subst h0
      rw [if_pos rfl]
      simp only [List.map_cons, List.nodup_cons]
      exact ⟨h.1, h.2⟩
    · rw [if_neg h0]
      simp only [List.map_cons, List.nodup_cons]
      refine ⟨?_, ih h.2⟩
      intro hc
      rcases (keys_aput rest k v k0).mp hc with hc | hc
      · exact h0 hc
      · exact h.1 hc

theorem nodup_keys_adel {α β : Type} [DecidableEq α] {m : List (α × β)}
    (h : (m.map Prod.fst).Nodup) (k : α) : ((adel m k).map Prod.fst).Nodup :=
  h.sublist ((adel_sublist m k).map Prod.fst)

/-! ### The sorted expiry bucket -/

/-- The expiry bucket's entries are in strictly ascending BoltDB key order. -/
def ESorted (l : List (List Nat × String)) : Prop :=
  List.Pairwise (fun a b => bytesLt a.1 b.1 = true) l

theorem esorted_adel {l : List (List Nat × String)} (hs : ESorted l) (k : List Nat) :
    ESorted (adel l k) :=
  List.Pairwise.sublist (adel_sublist l k) hs

theorem eput_cons (k0 : List Nat) (v0 : String) (rest : List (List Nat × String))
    (k : List Nat) (v : String) :
    eput ((k0, v0) :: rest) k v =
      if bytesLt k k0 then (k, v) :: (k0, v0) :: rest
      else if k = k0 then (k, v) :: rest
      else (k0, v0) :: eput rest k v := rfl

theorem mem_eput {l : List (List Nat × String)} (hs : ESorted l) (k : List Nat) (v : String)
    {e : List Nat × String} :
    e ∈ eput l k v ↔ e = (k, v) ∨ (e ∈ l ∧ e.1 ≠ k) := by
  induction l with
  | nil => simp [eput]
  | cons e0 rest ih =>
    obtain ⟨k0, v0⟩ := e0
    obtain ⟨hhead, htail⟩ := List.pairwise_cons.mp hs
    rw [eput_cons]
    by_cases h1 : bytesLt k k0 = true
    · rw [if_pos h1]
      simp only [List.mem_cons]
      constructor
      · rintro (he | he | he)
        · exact Or.inl he
        · refine Or.inr ⟨Or.inl he, ?_⟩
          rw [he]
          intro hk
          have hk' : k0 = k := hk
          rw [hk'] at h1
          rw [bytesLt_irrefl] at h1
          cases h1
        · refine Or.inr ⟨Or.inr he, ?_⟩
          intro hk
          have h2 : bytesLt k e.1 = true := bytesLt_trans h1 (hhead e he)
          rw [hk] at h2
          rw [bytesLt_irrefl] at h2
          cases h2
      · rintro (he | ⟨he | he, _⟩)
        · exact Or.inl he
        · exact Or.inr (Or.inl he)
        · exact Or.inr (Or.inr he)
    · rw [if_neg h1]
      by_cases h2 : k = k0
      · subst h2
        rw [if_pos rfl]
        simp only [List.mem_cons]
        constructor
        · rintro (he | he)
          · exact Or.inl he
          · refine Or.inr ⟨Or.inr he, ?_⟩
            intro hk
            have h3 : bytesLt k e.1 = true := hhead e he
            rw [hk] at h3
            rw [bytesLt_irrefl] at h3
            cases h3
        · rintro (he | ⟨he | he, hne⟩)
          · exact Or.inl he
          · exact absurd (by rw [he]) hne
          · exact Or.inr he
      · rw [if_neg h2]
        simp only [List.mem_cons, ih htail]
        constructor
        · rintro (he | he | ⟨he, hne⟩)
          · refine Or.inr ⟨Or.inl he, ?_⟩
            rw [he]
            exact fun hk => h2 hk.symm
          · exact Or.inl he
          · exact Or.inr ⟨Or.inr he, hne⟩
        · rintro (he | ⟨he | he, hne⟩)
          · exact Or.inr (Or.inl he)
          · exact Or.inl he
          · exact Or.inr (Or.inr ⟨he, hne⟩)

theorem esorted_eput {l : List (List Nat × String)} (hs : ESorted l) (k : List Nat)
    (v : String) : ESorted (eput l k v) := by
  induction l with
  | nil =>
    simp only [eput]
    exact List.pairwise_singleton _ _
  | cons e0 rest ih =>
    obtain ⟨k0, v0⟩ := e0
    obtain ⟨hhead, htail⟩ := List.pairwise_cons.mp hs
    rw [eput_cons]
    by_cases h1 : bytesLt k k0 = true
    · rw [if_pos h1]
      refine List.pairwise_cons.mpr ⟨?_, hs⟩
      intro e' he'
      rcases List.mem_cons.mp he' with he | he
      · rw [he]
        exact h1
      · exact bytesLt_trans h1 (hhead e' he)
    · rw [if_neg h1]
      by_cases h2 : k = k0
      · subst h2
        rw [if_pos rfl]
        exact List.pairwise_cons.mpr ⟨hhead, htail⟩
      · rw [if_neg h2]
        refine List.pairwise_cons.mpr ⟨?_, ih htail⟩
        intro e' he'
        rcases (mem_eput htail k v).mp he' with he | ⟨he, _⟩
        · rw [he]
          rcases bytesLt_total h2 with h | h
          · exact absurd h h1
          · exact h
        · exact hhead e' he

/-! ### The embedded store's invariant -/

namespace Boltstore

/-- Well-formedness of a BoltDB store state: primary keys are unique and
match the stored record's `ID` field; the expiry bucket is in strictly
ascending key order; every stored record with an expiry has its index entry
(completeness); and every index entry points back, under exactly its
composite key, to a stored record carrying that expiry (soundness). -/
structure Inv (s : State) : Prop where
  nodupIds : (s.pastes.map Prod.fst).Nodup
  idsMatch : ∀ id p, aget s.pastes id = some p → p.ID = id
  sorted : ESorted s.expires
  complete : ∀ id p, aget s.pastes id = some p → p.HasExpiration = true →
    (expireKey p.ExpiresAt id, id) ∈ s.expires
  sound : ∀ k v, (k, v) ∈ s.expires →
    ∃ p, aget s.pastes v = some p ∧ p.HasExpiration = true ∧ k = expireKey p.ExpiresAt v

theorem Inv.empty : Inv State.empty where
  nodupIds := List.nodup_nil
  idsMatch := by intro id p h; cases h
  sorted := List.Pairwise.nil
  complete := by intro id p h; cases h
  sound := by intro k v h; simp [State.empty] at h

theorem Inv.sound_pair {s : State} (hs : Inv s) {e : List Nat × String} (he : e ∈ s.expires) :
    ∃ p, aget s.pastes e.2 = some p ∧ p.HasExpiration = true ∧
      e.1 = expireKey p.ExpiresAt e.2 := by
  obtain ⟨k, v⟩ := e
  exact hs.sound k v he

theorem Inv.key_ne {s : State} (hs : Inv s) {e : List Nat × String} (he : e ∈ s.expires)
    {id : String} (hne : e.2 ≠ id) (t : GoTime) : e.1 ≠ expireKey t id := by
  obtain ⟨p, _, _, hk⟩ := hs.sound_pair he
  intro hc
  rw [hk] at hc
  exact hne (expireKey_inj hc).2

theorem Inv.val_entry {s : State} (hs : Inv s) {k : List Nat} {v : String}
    (he : (k, v) ∈ s.expires) {p : Paste} (hp : aget s.pastes v = some p) :
    p.HasExpiration = true ∧ k = expireKey p.ExpiresAt v := by
  obtain ⟨p', hget, hexp, hk⟩ := hs.sound k v he
  rw [hp] at hget
  have hpp : p' = p := by
    injection hget with h
    exact h.symm
  subst hpp
  exact ⟨hexp, hk⟩

theorem Inv.no_orphan {s : State} (hs : Inv s) {k : List Nat} {v : String}
    (he : (k, v) ∈ s.expires) (hnone : aget s.pastes v = none) : False := by
  obtain ⟨p', hget, _, _⟩ := hs.sound k v he
  rw [hnone] at hget
  cases hget

theorem Inv.valuesNodup {s : State} (hs : Inv s) : (s.expires.map Prod.snd).Nodup := by
  rw [List.Nodup, List.pairwise_map]
  refine hs.sorted.imp_of_mem ?_
  intro a b ha hb hlt hvv
  obtain ⟨p, hget, hexp, hk⟩ := hs.sound_pair ha
  obtain ⟨p', hget', hexp', hk'⟩ := hs.sound_pair hb
  rw [hvv] at hget hk
  rw [hget'] at hget
  have hpp : p = p' := by
    injection hget with h
    exact h.symm
  subst hpp
  rw [hk, hk'] at hlt
  rw [bytesLt_irrefl] at hlt
  cases hlt

/-! ### Characterizing `Save` -/

/-- The expiry bucket after step 2 of the save transaction (removal of the
existing record's index entry, when one exists and has an expiry). -/
def savePrevExpires (s : State) (id : String) : List (List Nat × String) :=
  match aget s.pastes id with
  | some prev =>
    if prev.HasExpiration then adel s.expires (expireKey prev.ExpiresAt prev.ID)
    else s.expires
  | none => s.expires

/-- The expiry bucket after the whole save transaction of the (already
normalized) record `p`. -/
def saveExpires (s : State) (p : Paste) : List (List Nat × String) :=
  if p.HasExpiration then eput (savePrevExpires s p.ID) (expireKey p.ExpiresAt p.ID) p.ID
  else savePrevExpires s p.ID

theorem Save_none (s : State) : Save s none = (s, .error .nilPaste) := rfl

theorem Save_result (s : State) (p0 : Paste) :
    (Save s (some p0)).2 = .ok (normalizePaste p0) := rfl

theorem Save_pastes (s : State) (p0 : Paste) :
    (Save s (some p0)).1.pastes = aput s.pastes (normalizePaste p0).ID (normalizePaste p0) := rfl

theorem Save_expires (s : State) (p0 : Paste) :
    (Save s (some p0)).1.expires = saveExpires s (normalizePaste p0) := rfl

theorem savePrevExpires_none {s : State} {id : String} (h : aget s.pastes id = none) :
    savePrevExpires s id = s.expires := by
  unfold savePrevExpires
  rw [h]

theorem savePrevExpires_some {s : State} {id : String} {prev : Paste}
    (h : aget s.pastes id = some prev) :
    savePrevExpires s id =
      if prev.HasExpiration then adel s.expires (expireKey prev.ExpiresAt prev.ID)
      else s.expires := by
  unfold savePrevExpires
  rw [h]

theorem mem_savePrevExpires {s : State} (hs : Inv s) (id : String) {e : List Nat × String} :
    e ∈ savePrevExpires s id ↔ e ∈ s.expires ∧ e.2 ≠ id := by
  cases hget : aget s.pastes id with
  | none =>
    rw [savePrevExpires_none hget]
    constructor
    · intro he
      refine ⟨he, ?_⟩
      intro hv
      obtain ⟨k, v⟩ := e
      have hv' : v = id := hv
      subst hv'
      exact hs.no_orphan he hget
    · exact And.left
  | some prev =>
    rw [savePrevExpires_some hget]
    have hprevID : prev.ID = id := hs.idsMatch id prev hget
    by_cases hexp : prev.HasExpiration = true
    · rw [if_pos hexp, hprevID, mem_adel]
      constructor
      · rintro ⟨he, hkne⟩
        refine ⟨he, ?_⟩
        intro hv
        apply hkne
        obtain ⟨k, v⟩ := e
        have hv' : v = id := hv
        subst hv'
        exact (hs.val_entry he hget).2
      · rintro ⟨he, hvne⟩
        exact ⟨he, hs.key_ne he hvne _⟩
    · rw [if_neg hexp]
      constructor
      · intro he
        refine ⟨he, ?_⟩
        intro hv
        apply hexp
        obtain ⟨k, v⟩ := e
        have hv' : v = id := hv
        subst hv'
        exact (hs.val_entry he hget).1
      · exact And.left

theorem esorted_savePrevExpires {s : State} (hs : Inv s) (id : String) :
    ESorted (savePrevExpires s id) := by
  cases hget : aget s.pastes id with
  | none =>
    rw [savePrevExpires_none hget]
    exact hs.sorted
  | some prev =>
    rw [savePrevExpires_some hget]
    by_cases hexp : prev.HasExpiration = true
    · rw [if_pos hexp]
      exact esorted_adel hs.sorted _
    · rw [if_neg hexp]
      exact hs.sorted

theorem mem_saveExpires {s : State} (hs : Inv s) (p : Paste) {e : List Nat × String} :
    e ∈ saveExpires s p ↔
      (p.HasExpiration = true ∧ e = (expireKey p.ExpiresAt p.ID, p.ID)) ∨
      (e ∈ s.expires ∧ e.2 ≠ p.ID) := by
  unfold saveExpires
  by_cases hexp : p.HasExpiration = true
  · rw [if_pos hexp, mem_eput (esorted_savePrevExpires hs p.ID)]
    constructor
    · rintro (he | ⟨he, _⟩)
      · exact Or.inl ⟨hexp, he⟩
      · exact Or.inr ((mem_savePrevExpires hs p.ID).mp he)
    · rintro (⟨_, he⟩ | ⟨he, hvne⟩)
      · exact Or.inl he
      · exact ⟨(mem_savePrevExpires hs p.ID).mpr ⟨he, hvne⟩, hs.key_ne he hvne _⟩ |> Or.inr
  · rw [if_neg hexp, mem_savePrevExpires hs p.ID]
    constructor
    · exact Or.inr
    · rintro (⟨hex, _⟩ | h)
      · exact absurd hex hexp
      · exact h

theorem esorted_saveExpires {s : State} (hs : Inv s) (p : Paste) :
    ESorted (saveExpires s p) := by
  unfold saveExpires
  by_cases hexp : p.HasExpiration = true
  · rw [if_pos hexp]
    exact esorted_eput (esorted_savePrevExpires hs p.ID) _ _
  · rw [if_neg hexp]
    exact esorted_savePrevExpires hs p.ID

theorem Inv.save {s : State} (hs : Inv s) (p0 : Paste) : Inv (Save s (some p0)).1 := by
  have hpget : ∀ j, aget (Save s (some p0)).1.pastes j =
      if (normalizePaste p0).ID = j then some (normalizePaste p0) else aget s.pastes j := by
    intro j
    rw [Save_pastes, aget_aput]
  refine ⟨?_, ?_, ?_, ?_, ?_⟩
  · rw [Save_pastes]
    exact nodup_keys_aput hs.nodupIds _ _
  · intro id q hq
    rw [hpget] at hq
    by_cases hid : (normalizePaste p0).ID = id
    · rw [if_pos hid] at hq
      have hqq : normalizePaste p0 = q := by injection hq
      rw [← hqq, hid]
    · rw [if_neg hid] at hq
      exact hs.idsMatch id q hq
  · rw [Save_expires]
    exact esorted_saveExpires hs _
  · intro id q hq hqexp
    rw [Save_expires]
    rw [hpget] at hq
    by_cases hid : (normalizePaste p0).ID = id
    · rw [if_pos hid] at hq
      have hqq : normalizePaste p0 = q := by injection hq
      rw [mem_saveExpires hs]
      refine Or.inl ⟨by rw [hqq]; exact hqexp, ?_⟩
      rw [← hid, ← hqq]
    · rw [if_neg hid] at hq
      rw [mem_saveExpires hs]
      exact Or.inr ⟨hs.complete id q hq hqexp, fun h => hid h.symm⟩
  · intro k v hkv
    rw [Save_expires, mem_saveExpires hs] at hkv
    rcases hkv with ⟨hexp, hkv⟩ | ⟨hkv, hvne⟩
    · have hk : k = expireKey (normalizePaste p0).ExpiresAt (normalizePaste p0).ID :=
        congrArg Prod.fst hkv
      have hv : v = (normalizePaste p0).ID := congrArg Prod.snd hkv
      refine ⟨normalizePaste p0, ?_, hexp, by rw [hk, hv]⟩
      rw [hpget, hv, if_pos rfl]
    · obtain ⟨q, hgetq, hexpq, hkq⟩ := hs.sound k v hkv
      refine ⟨q, ?_, hexpq, hkq⟩
      rw [hpget, if_neg (fun h => hvne h.symm)]
      exact hgetq

/-! ### Characterizing `Delete` -/

theorem Delete_none {s : State} {id : String} (h : aget s.pastes id = none) :
    Delete s id = (s, .error .notFound) := by
  unfold Delete
  rw [h]

theorem Delete_some {s : State} {id : String} {p : Paste} (h : aget s.pastes id = some p) :
    Delete s id = (⟨adel s.pastes id, savePrevExpires s id⟩, .ok ()) := by
  unfold Delete
  rw [h, savePrevExpires_some h]

theorem Inv.delete {s : State} (hs : Inv s) (id : String) : Inv (Delete s id).1 := by
  cases hget : aget s.pastes id with
  | none =>
    rw [Delete_none hget]
    exact hs
  | some p =>
    rw [Delete_some hget]
    refine ⟨?_, ?_, ?_, ?_, ?_⟩
    · exact nodup_keys_adel hs.nodupIds id
    · intro j q hq
      rw [show (State.mk (adel s.pastes id) (savePrevExpires s id)).pastes
          = adel s.pastes id from rfl, aget_adel] at hq
      by_cases hj : id = j
      · rw [if_pos hj] at hq
        cases hq
      · rw [if_neg hj] at hq
        exact hs.idsMatch j q hq
    · exact esorted_savePrevExpires hs id
    · intro j q hq hqexp
      rw [show (State.mk (adel s.pastes id) (savePrevExpires s id)).pastes
          = adel s.pastes id from rfl, aget_adel] at hq
      by_cases hj : id = j
      · rw [if_pos hj] at hq
        cases hq
      · rw [if_neg hj] at hq
        show _ ∈ savePrevExpires s id
        rw [mem_savePrevExpires hs]
        exact ⟨hs.complete j q hq hqexp, fun h => hj h.symm⟩
    · intro k v hkv
      rw [show (State.mk (adel s.pastes id) (savePrevExpires s id)).expires
          = savePrevExpires s id from rfl, mem_savePrevExpires hs] at hkv
      obtain ⟨hkv, hvne⟩ := hkv
      obtain ⟨q, hgetq, hexpq, hkq⟩ := hs.sound k v hkv
      refine ⟨q, ?_, hexpq, hkq⟩
      rw [show (State.mk (adel s.pastes id) (savePrevExpires s id)).pastes
          = adel s.pastes id from rfl, aget_adel, if_neg (fun h => hvne h.symm)]
      exact hgetq

/-! ### Characterizing the sweep -/

/-- Whether the cursor loop treats an index entry as expired: the decoded
8-byte timestamp prefix of its key does not exceed the cutoff. -/
def entryExpired (cutoff : Nat) (e : List Nat × String) : Bool :=
  beUint64 (e.1.take 8) ≤ cutoff

/-- Deleting a list of ids from the paste bucket, first to last. -/
def adelAll (pB : List (String × Paste)) (ids : List String) : List (String × Paste) :=
  ids.foldl adel pB

theorem aget_adelAll (pB : List (String × Paste)) (ids : List String) (j : String) :
    aget (adelAll pB ids) j = if j ∈ ids then none else aget pB j := by
  induction ids generalizing pB with
  | nil => simp [adelAll]
  | cons i rest ih =>
    have hstep : adelAll pB (i :: rest) = adelAll (adel pB i) rest := rfl
    rw [hstep, ih]
    by_cases hj : j ∈ rest
    · rw [if_pos hj, if_pos (List.mem_cons_of_mem i hj)]
    · rw [if_neg hj, aget_adel]
      by_cases hji : i = j
      · rw [if_pos hji, if_pos (by rw [hji]; exact List.mem_cons_self _ _)]
      · rw [if_neg hji, if_neg (by
          intro hc
          rcases List.mem_cons.mp hc with hc | hc
          · exact hji hc.symm
          · exact hj hc)]

theorem nodup_keys_adelAll {pB : List (String × Paste)} (h : (pB.map Prod.fst).Nodup)
    (ids : List String) : ((adelAll pB ids).map Prod.fst).Nodup := by
  induction ids generalizing pB with
  | nil => exact h
  | cons i rest ih => exact ih (nodup_keys_adel h i)

theorem sweepLoop_cons (pB : List (String × Paste)) (k : List Nat) (v : String)
    (rest : List (List Nat × String)) (cutoff : Nat) :
    sweepLoop pB ((k, v) :: rest) cutoff =
      if cutoff < beUint64 (k.take 8) then (pB, (k, v) :: rest, 0)
      else ((sweepLoop (adel pB v) rest cutoff).1,
            (sweepLoop (adel pB v) rest cutoff).2.1,
            (sweepLoop (adel pB v) rest cutoff).2.2 + 1) := rfl

/-- The cursor loop computes: delete the primary records named by the maximal
expired prefix of the index, keep the remaining suffix, count the prefix. -/
theorem sweepLoop_eq (pB : List (String × Paste)) (entries : List (List Nat × String))
    (cutoff : Nat) :
    sweepLoop pB entries cutoff =
      (adelAll pB ((entries.takeWhile (entryExpired cutoff)).map Prod.snd),
       entries.dropWhile (entryExpired cutoff),
       (entries.takeWhile (entryExpired cutoff)).length) := by
  induction entries generalizing pB with
  | nil => rfl
  | cons e rest ih =>
    obtain ⟨k, v⟩ := e
    rw [sweepLoop_cons]
    by_cases hc : cutoff < beUint64 (k.take 8)
    · rw [if_pos hc]
      have hexp : entryExpired cutoff (k, v) = false := by
        simp only [entryExpired, decide_eq_false_iff_not]
        omega
      rw [List.takeWhile_cons, List.dropWhile_cons, hexp]
      rfl
    · rw [if_neg hc]
      have hexp : entryExpired cutoff (k, v) = true := by
        simp only [entryExpired, decide_eq_true_eq]
        omega
      rw [ih (adel pB v), List.takeWhile_cons, List.dropWhile_cons, hexp]
      simp only [if_true, List.map_cons, List.length_cons]
      rfl

theorem DeleteExpired_def (s : State) (before : GoTime) :
    DeleteExpired s before =
      (⟨(sweepLoop s.pastes s.expires (toTimestamp before.UTC)).1,
        (sweepLoop s.pastes s.expires (toTimestamp before.UTC)).2.1⟩,
       (sweepLoop s.pastes s.expires (toTimestamp before.UTC)).2.2) := rfl

theorem DeleteExpired_pastes (s : State) (before : GoTime) :
    (DeleteExpired s before).1.pastes =
      adelAll s.pastes
        ((s.expires.takeWhile (entryExpired (toTimestamp before))).map Prod.snd) := by
  rw [DeleteExpired_def, toTimestamp_utc, sweepLoop_eq]

theorem DeleteExpired_expires (s : State) (before : GoTime) :
    (DeleteExpired s before).1.expires =
      s.expires.dropWhile (entryExpired (toTimestamp before)) := by
  rw [DeleteExpired_def, toTimestamp_utc, sweepLoop_eq]

theorem DeleteExpired_count (s : State) (before : GoTime) :
    (DeleteExpired s before).2 =
      (s.expires.takeWhile (entryExpired (toTimestamp before))).length := by
  rw [DeleteExpired_def, toTimestamp_utc, sweepLoop_eq]

theorem Inv.tsOf_mono {s : State} (hs : Inv s) {a b : List Nat × String}
    (ha : a ∈ s.expires) (hb : b ∈ s.expires) (hlt : bytesLt a.1 b.1 = true) :
    beUint64 (a.1.take 8) ≤ beUint64 (b.1.take 8) := by
  obtain ⟨p, _, _, hk⟩ := hs.sound_pair ha
  obtain ⟨q, _, _, hk'⟩ := hs.sound_pair hb
  rw [hk, hk'] at hlt
  rw [hk, hk', beUint64_expireKey, beUint64_expireKey]
  exact expireKey_ts_le hlt

theorem Inv.pairwise_ts {s : State} (hs : Inv s) :
    List.Pairwise (fun a b => beUint64 (a.1.take 8) ≤ beUint64 (b.1.take 8)) s.expires := by
  refine hs.sorted.imp_of_mem ?_
  intro a b ha hb hlt
  exact hs.tsOf_mono ha hb hlt

/-- In a sorted index, every entry the cursor loop leaves behind decodes to a
timestamp above the cutoff. -/
theorem dropWhile_ts_gt {cutoff : Nat} :
    ∀ {l : List (List Nat × String)},
      List.Pairwise (fun a b => beUint64 (a.1.take 8) ≤ beUint64 (b.1.take 8)) l →
      ∀ e ∈ l.dropWhile (entryExpired cutoff), entryExpired cutoff e = false := by
  intro l
  induction l with
  | nil =>
    intro _ e he
    simp [List.dropWhile] at he
  | cons x rest ih =>
    intro hsor e he
    obtain ⟨hhead, htail⟩ := List.pairwise_cons.mp hsor
    rw [List.dropWhile_cons] at he
    by_cases hx : entryExpired cutoff x = true
    · rw [if_pos hx] at he
      exact ih htail e he
    · have hxf : entryExpired cutoff x = false := by
        cases hv : entryExpired cutoff x
        · rfl
        · exact absurd hv hx
      rw [hxf, if_neg (by simp)] at he
      rcases List.mem_cons.mp he with he | he
      · rw [he]
        exact hxf
      · have h1 := hhead e he
        simp only [entryExpired, decide_eq_false_iff_not] at hxf ⊢
        omega

theorem Inv.mem_takeWhile_iff {s : State} (hs : Inv s) {cutoff : Nat}
    {e : List Nat × String} :
    e ∈ s.expires.takeWhile (entryExpired cutoff) ↔
      e ∈ s.expires ∧ entryExpired cutoff e = true := by
  constructor
  · intro he
    exact ⟨List.Sublist.subset (List.takeWhile_sublist _) he, List.mem_takeWhile_imp he⟩
  · rintro ⟨he, hexp⟩
    have hsplit := List.takeWhile_append_dropWhile (entryExpired cutoff) s.expires
    rw [← hsplit] at he
    rcases List.mem_append.mp he with h | h
    · exact h
    · have hf := dropWhile_ts_gt hs.pairwise_ts e h
      rw [hexp] at hf
      cases hf

theorem Inv.sweep {s : State} (hs : Inv s) (before : GoTime) :
    Inv (DeleteExpired s before).1 := by
  refine ⟨?_, ?_, ?_, ?_, ?_⟩
  · rw [DeleteExpired_pastes]
    exact nodup_keys_adelAll hs.nodupIds _
  · intro j q hq
    rw [DeleteExpired_pastes, aget_adelAll] at hq
    by_cases hj : j ∈ (s.expires.takeWhile (entryExpired (toTimestamp before))).map Prod.snd
    · rw [if_pos hj] at hq
      cases hq
    · rw [if_neg hj] at hq
      exact hs.idsMatch j q hq
  · rw [DeleteExpired_expires]
    exact List.Pairwise.sublist (List.dropWhile_sublist _) hs.sorted
  · intro j q hq hqexp
    rw [DeleteExpired_pastes, aget_adelAll] at hq
    rw [DeleteExpired_expires]
    by_cases hj : j ∈ (s.expires.takeWhile (entryExpired (toTimestamp before))).map Prod.snd
    · rw [if_pos hj] at hq
      cases hq
    · rw [if_neg hj] at hq
      have hent := hs.complete j q hq hqexp
      have hsplit := List.takeWhile_append_dropWhile (entryExpired (toTimestamp before)) s.expires
      rw [← hsplit] at hent
      rcases List.mem_append.mp hent with h | h
      · exact absurd (List.mem_map.mpr ⟨(expireKey q.ExpiresAt j, j), h, rfl⟩) hj
      · exact h
  · intro k v hkv
    rw [DeleteExpired_expires] at hkv
    have hkv' : (k, v) ∈ s.expires := List.Sublist.subset (List.dropWhile_sublist _) hkv
    obtain ⟨q, hgetq, hexpq, hkq⟩ := hs.sound k v hkv'
    refine ⟨q, ?_, hexpq, hkq⟩
    rw [DeleteExpired_pastes, aget_adelAll, if_neg ?_]
    · exact hgetq
    · intro hc
      obtain ⟨e', he', hve'⟩ := List.mem_map.mp hc
      have hnd : ((s.expires.takeWhile (entryExpired (toTimestamp before))).map Prod.snd
          ++ (s.expires.dropWhile (entryExpired (toTimestamp before))).map Prod.snd).Nodup := by
        rw [← List.map_append, List.takeWhile_append_dropWhile]
        exact hs.valuesNodup
      exact List.disjoint_of_nodup_append hnd
        (List.mem_map.mpr ⟨e', he', hve'⟩) (List.mem_map.mpr ⟨(k, v), hkv, rfl⟩)

theorem Inv.apply_op {s : State} (hs : Inv s) (op : Op) : Inv (applyOp s op) := by
  cases op with
  | save p =>
    cases p with
    | none =>
      rw [show applyOp s (.save none) = (Save s none).1 from rfl, Save_none]
      exact hs
    | some p0 => exact hs.save p0
  | del id => exact hs.delete id
  | sweep t => exact hs.sweep t

theorem inv_runOps (ops : List Op) : Inv (runOps ops) := by
  have h : ∀ (l : List Op) (s : State), Inv s → Inv (l.foldl applyOp s) := by
    intro l
    induction l with
    | nil =>
      intro s hs
      exact hs
    | cons op rest ih =>
      intro s hs
      exact ih _ (hs.apply_op op)
  exact h ops State.empty Inv.empty

/-! ### The expiry-index consistency property -/

/-- The consistency property of the secondary index: every stored record
with an expiry has exactly one index entry — the one keyed by its
`(expiresAt, id)` composite key — and every stored record without an expiry
has no index entry at all. -/
def expiryIndexConsistent (s : State) : Prop :=
  ∀ id p, aget s.pastes id = some p →
    (p.HasExpiration = true →
      s.expires.filter (fun e => e.2 == id) = [(expireKey p.ExpiresAt id, id)]) ∧
    (p.HasExpiration = false → s.expires.filter (fun e => e.2 == id) = [])

theorem filter_values_eq_single {l : List (List Nat × String)}
    (hnd : (l.map Prod.snd).Nodup) {x : List Nat × String} (hx : x ∈ l) :
    l.filter (fun e => e.2 == x.2) = [x] := by
  induction l with
  | nil => cases hx
  | cons y rest ih =>
    simp only [List.map_cons, List.nodup_cons] at hnd
    rcases List.mem_cons.mp hx with hxy | hxr
    · subst hxy
      rw [List.filter_cons, if_pos (by simp)]
      have hrest : rest.filter (fun e => e.2 == x.2) = [] := by
        apply List.filter_eq_nil_iff.mpr
        intro e he
        simp only [beq_iff_eq]
        intro hv
        exact hnd.1 (by rw [← hv]; exact List.mem_map.mpr ⟨e, he, rfl⟩)
      rw [hrest]
    · have hyne : (y.2 == x.2) = false := by
        simp only [beq_eq_false_iff_ne, ne_eq]
        intro hv
        exact hnd.1 (by rw [hv]; exact List.mem_map.mpr ⟨x, hxr, rfl⟩)
      rw [List.filter_cons, hyne, if_neg (by simp)]
      exact ih hnd.2 hxr

theorem Inv.consistent {s : State} (hs : Inv s) : expiryIndexConsistent s := by
  intro id p hp
  constructor
  · intro hexp
    have hx : (expireKey p.ExpiresAt id, id) ∈ s.expires := hs.complete id p hp hexp
    exact filter_values_eq_single hs.valuesNodup hx
  · intro hnexp
    apply List.filter_eq_nil_iff.mpr
    intro e he
    simp only [beq_iff_eq]
    intro hv
    obtain ⟨k, v⟩ := e
    have hv' : v = id := hv
    subst hv'
    have h1 := (hs.val_entry he hp).1
    rw [hnexp] at h1
    cases h1

/-! ### Exactness of the sweep -/

/-- The predicate the spec uses for "expired": the record's `expiresAt` is
set, and chronologically at or before the cutoff. -/
def recExpired (before : GoTime) (p : Paste) : Bool :=
  p.HasExpiration && decide (p.ExpiresAt.ns ≤ before.ns)

theorem takeWhile_eq_filter {s : State} (hs : Inv s) (cutoff : Nat) :
    s.expires.takeWhile (entryExpired cutoff) = s.expires.filter (entryExpired cutoff) := by
  conv_rhs => rw [← List.takeWhile_append_dropWhile (entryExpired cutoff) s.expires]
  rw [List.filter_append,
    List.filter_eq_self.mpr (fun a ha => List.mem_takeWhile_imp ha),
    List.filter_eq_nil_iff.mpr (fun a ha => by
      simp [dropWhile_ts_gt hs.pairwise_ts a ha]),
    List.append_nil]

theorem mem_filter_values_iff {s : State} (hs : Inv s) {before : GoTime} (hb : before.InRange)
    (hr : ∀ id p, aget s.pastes id = some p → p.HasExpiration = true → p.ExpiresAt.InRange)
    (v : String) :
    v ∈ (s.expires.filter (entryExpired (toTimestamp before))).map Prod.snd ↔
      ∃ p, aget s.pastes v = some p ∧ recExpired before p = true := by
  rw [List.mem_map]
  constructor
  · rintro ⟨e, he, hev⟩
    rw [List.mem_filter] at he
    obtain ⟨hel, hexp⟩ := he
    obtain ⟨p, hget, hpexp, hk⟩ := hs.sound_pair hel
    rw [hev] at hget
    refine ⟨p, hget, ?_⟩
    rw [recExpired, hpexp, Bool.true_and, decide_eq_true_eq]
    rw [entryExpired, decide_eq_true_eq, hk, beUint64_expireKey] at hexp
    have h1 := toTimestamp_of_inRange (hr v p hget hpexp)
    have h2 := toTimestamp_of_inRange hb
    rw [h1, h2] at hexp
    have h3 := (hr v p hget hpexp).1
    have h4 := hb.1
    omega
  · rintro ⟨p, hget, hexp⟩
    rw [recExpired, Bool.and_eq_true, decide_eq_true_eq] at hexp
    obtain ⟨hpexp, hle⟩ := hexp
    refine ⟨(expireKey p.ExpiresAt v, v), ?_, rfl⟩
    rw [List.mem_filter]
    refine ⟨hs.complete v p hget hpexp, ?_⟩
    rw [entryExpired, decide_eq_true_eq, beUint64_expireKey,
      toTimestamp_of_inRange (hr v p hget hpexp), toTimestamp_of_inRange hb]
    have h3 := (hr v p hget hpexp).1
    omega

/-- Under the invariant and in-range timestamps, the sweep's effect on the
primary bucket is exactly: records whose expiry is set and at or before the
cutoff disappear, all other records are untouched. -/
theorem sweep_state {s : State} (hs : Inv s) {before : GoTime} (hb : before.InRange)
    (hr : ∀ id p, aget s.pastes id = some p → p.HasExpiration = true → p.ExpiresAt.InRange)
    {id : String} {p : Paste} (hp : aget s.pastes id = some p) :
    aget (DeleteExpired s before).1.pastes id =
      if recExpired before p = true then none else some p := by
  rw [DeleteExpired_pastes, aget_adelAll, takeWhile_eq_filter hs]
  have hmem := mem_filter_values_iff hs hb hr id
  by_cases hrem : recExpired before p = true
  · rw [if_pos hrem, if_pos (hmem.mpr ⟨p, hp, hrem⟩)]
  · have hnot : id ∉ (s.expires.filter (entryExpired (toTimestamp before))).map Prod.snd := by
      intro hc
      obtain ⟨q, hq, hqexp⟩ := hmem.mp hc
      rw [hp] at hq
      have hqp : q = p := by
        injection hq with h
        exact h.symm
      rw [hqp] at hqexp
      exact hrem hqexp
    rw [if_neg hnot, if_neg hrem]
    exact hp

/-- Records with no expiry are never touched by a sweep, whatever the
cutoff. -/
theorem sweep_keeps_noexp {s : State} (hs : Inv s) (before : GoTime) {id : String} {p : Paste}
    (hp : aget s.pastes id = some p) (hnexp : p.HasExpiration = false) :
    aget (DeleteExpired s before).1.pastes id = some p := by
  rw [DeleteExpired_pastes, aget_adelAll]
  have hnot : id ∉ (s.expires.takeWhile (entryExpired (toTimestamp before))).map Prod.snd := by
    intro hc
    obtain ⟨e, he, hev⟩ := List.mem_map.mp hc
    have hel : e ∈ s.expires := List.Sublist.subset (List.takeWhile_sublist _) he
    obtain ⟨k, v⟩ := e
    have hv' : v = id := hev
    subst hv'
    have h1 := (hs.val_entry hel hp).1
    rw [hnexp] at h1
    cases h1
  rw [if_neg hnot]
  exact hp

theorem filter_length_split {α : Type} (p : α → Bool) (l : List α) :
    (l.filter p).length + (l.filter (fun a => !p a)).length = l.length := by
  induction l with
  | nil => rfl
  | cons a rest ih =>
    rw [List.filter_cons, List.filter_cons]
    cases hp : p a
    · simp only [Bool.not_false, if_true, if_false, Bool.false_eq_true, List.length_cons]
      omega
    · simp only [Bool.not_true, if_true, if_false, Bool.false_eq_true, List.length_cons]
      omega

/-- Under the invariant and in-range timestamps, the sweep's return value
counts exactly the stored records that were expired at the cutoff. -/
theorem sweep_count {s : State} (hs : Inv s) {before : GoTime} (hb : before.InRange)
    (hr : ∀ id p, aget s.pastes id = some p → p.HasExpiration = true → p.ExpiresAt.InRange) :
    (DeleteExpired s before).2 =
      (s.pastes.filter (fun e => recExpired before e.2)).length := by
  rw [DeleteExpired_count, takeWhile_eq_filter hs]
  have hnd1 : ((s.expires.filter (entryExpired (toTimestamp before))).map Prod.snd).Nodup :=
    List.Nodup.sublist (List.Sublist.map _ (List.filter_sublist _)) hs.valuesNodup
  have hnd2 : ((s.pastes.filter (fun e => recExpired before e.2)).map Prod.fst).Nodup :=
    List.Nodup.sublist (List.Sublist.map _ (List.filter_sublist _)) hs.nodupIds
  have hperm := (List.perm_ext_iff_of_nodup hnd1 hnd2).mpr ?_
  · have hlen := hperm.length_eq
    rw [List.length_map, List.length_map] at hlen
    exact hlen
  · intro v
    rw [mem_filter_values_iff hs hb hr v]
    constructor
    · rintro ⟨p, hget, hexp⟩
      exact List.mem_map.mpr ⟨(v, p), List.mem_filter.mpr ⟨aget_mem hget, hexp⟩, rfl⟩
    · intro hc
      obtain ⟨e, he, hev⟩ := List.mem_map.mp hc
      rw [List.mem_filter] at he
      obtain ⟨hel, hexp⟩ := he
      obtain ⟨k, q⟩ := e
      have hv' : k = v := hev
      subst hv'
      exact ⟨q, aget_of_mem_nodup hs.nodupIds hel, hexp⟩

/-! ### Idempotence of the sweep -/

theorem takeWhile_nil_of_all_false {p : (List Nat × String) → Bool}
    {l : List (List Nat × String)} (h : ∀ e ∈ l, p e = false) :
    l.takeWhile p = [] ∧ l.dropWhile p = l := by
  cases l with
  | nil => exact ⟨rfl, rfl⟩
  | cons x rest =>
    rw [List.takeWhile_cons, List.dropWhile_cons, h x (List.mem_cons_self _ _)]
    exact ⟨by simp, by simp⟩

/-- A sweep over a store whose index has no expired entry is a no-op that
reports zero removals. -/
theorem sweep_noop {s' : State} {t' : GoTime}
    (hall : ∀ e ∈ s'.expires, entryExpired (toTimestamp t') e = false) :
    DeleteExpired s' t' = (s', 0) := by
  obtain ⟨h1, h2⟩ := takeWhile_nil_of_all_false hall
  rw [DeleteExpired_def, toTimestamp_utc, sweepLoop_eq, h1, h2]
  rfl

/-- After a sweep at cutoff `t`, a second sweep at any chronologically
earlier or equal in-range cutoff `t'` removes nothing and leaves the state
unchanged. -/
theorem sweep_idempotent {s : State} (hs : Inv s) {t t' : GoTime}
    (ht : t.InRange) (ht' : t'.InRange) (hle : t'.ns ≤ t.ns) :
    DeleteExpired (DeleteExpired s t).1 t' = ((DeleteExpired s t).1, 0) := by
  have hc' : toTimestamp t' ≤ toTimestamp t := toTimestamp_mono ht' ht hle
  apply sweep_noop
  intro e he
  rw [DeleteExpired_expires] at he
  have h1 := dropWhile_ts_gt hs.pairwise_ts e he
  simp only [entryExpired, decide_eq_false_iff_not] at h1 ⊢
  omega

end Boltstore

/-! ### Facts about the SQLite backend -/

namespace Sqlitestore

theorem sqlSave_none (rows : Table) : Save rows none = (rows, .error .nilPaste) := rfl

theorem sqlSave_result (rows : Table) (p0 : Paste) :
    (Save rows (some p0)).2 = .ok (normalizePaste p0) := rfl

theorem Save_rows (rows : Table) (p0 : Paste) :
    (Save rows (some p0)).1 =
      upsert rows ⟨(normalizePaste p0).ID, (normalizePaste p0).Content,
        (normalizePaste p0).Syn, (normalizePaste p0).CreatedAt,
        nullableTime (normalizePaste p0).ExpiresAt,
        nullString (normalizePaste p0).PasswordHash, (normalizePaste p0).Size⟩ := rfl

theorem findRow_upsert (rows : Table) (r : Row) : findRow (upsert rows r) r.id = some r := by
  induction rows with
  | nil => simp [upsert, findRow]
  | cons r0 rest ih =>
    by_cases h0 : r0.id = r.id
    · simp [upsert, h0, findRow]
    · simp only [upsert, if_neg h0]
      unfold findRow at ih ⊢
      rw [List.find?_cons_of_neg _ (by simp [h0]), ih]

theorem findRow_none_delete {rows : Table} {id : String} (h : findRow rows id = none) :
    Delete rows id = (rows, .error .notFound) := by
  unfold Delete
  have hall : ∀ r ∈ rows, (!(r.id == id)) = true := by
    intro r hr
    have h1 := List.find?_eq_none.mp h r hr
    simpa using h1
  rw [List.filter_eq_self.mpr hall]
  simp

/-- `Get` after `Save` recovers the normalized record exactly: the scan maps
`NULL` expiry back to the zero time and `NULL` password hash back to the
empty string, and UTC normalization is idempotent. -/
theorem Get_Save (rows : Table) (p0 : Paste) :
    Get (Save rows (some p0)).1 p0.ID = .ok (normalizePaste p0) := by
  have hid : p0.ID = (normalizePaste p0).ID := rfl
  rw [hid, Get, Save_rows]
  rw [show (normalizePaste p0).ID =
    (Row.mk (normalizePaste p0).ID (normalizePaste p0).Content (normalizePaste p0).Syn
      (normalizePaste p0).CreatedAt (nullableTime (normalizePaste p0).ExpiresAt)
      (nullString (normalizePaste p0).PasswordHash) (normalizePaste p0).Size).id from rfl]
  rw [findRow_upsert]
  obtain ⟨i, c, sy, ca, ea, ph, sz⟩ := p0
  simp only [normalizePaste, nullableTime, nullString]
  by_cases hz : ea.UTC.IsZero = true
  · rw [if_pos hz]
    have hns : ea.ns = goZeroNs := by
      have h := hz
      simp only [GoTime.IsZero, GoTime.utc_ns, beq_iff_eq] at h
      exact h
    by_cases hph : ph = ""
    · subst hph
      rw [if_pos rfl]
      simp [GoTime.utc_utc, GoTime.zero, GoTime.UTC, hns]
    · rw [if_neg hph]
      simp [GoTime.utc_utc, GoTime.zero, GoTime.UTC, hns]
  · rw [if_neg hz]
    by_cases hph : ph = ""
    · subst hph
      rw [if_pos rfl]
      simp [GoTime.utc_utc]
    · rw [if_neg hph]
      simp [GoTime.utc_utc]

theorem sqlDeleteExpired_def (rows : Table) (before : GoTime) :
    DeleteExpired rows before =
      (rows.filter (fun r => !rowExpired before r),
       rows.length - (rows.filter (fun r => !rowExpired before r)).length) := rfl

/-- The range delete removes exactly the rows with a non-`NULL` expiry at or
before the cutoff, and reports that number. -/
theorem DeleteExpired_exact (rows : Table) (before : GoTime) :
    (DeleteExpired rows before).1 = rows.filter (fun r => !rowExpired before r) ∧
    (DeleteExpired rows before).2 = (rows.filter (fun r => rowExpired before r)).length := by
  refine ⟨rfl, ?_⟩
  rw [sqlDeleteExpired_def]
  have hsplit := Boltstore.filter_length_split (fun r => rowExpired before r) rows
  simp only at hsplit
  omega

theorem DeleteExpired_idem (rows : Table) {t t' : GoTime} (hle : t'.ns ≤ t.ns) :
    DeleteExpired (DeleteExpired rows t).1 t' = ((DeleteExpired rows t).1, 0) := by
  rw [sqlDeleteExpired_def rows t, sqlDeleteExpired_def]
  have hall : ∀ r ∈ rows.filter (fun r => !rowExpired t r), (!rowExpired t' r) = true := by
    intro r hr
    rw [List.mem_filter] at hr
    obtain ⟨_, hk⟩ := hr
    simp only [Bool.not_eq_true'] at hk ⊢
    unfold rowExpired at hk ⊢
    cases hexp : r.expiresAt with
    | none => rfl
    | some u =>
      rw [hexp] at hk
      simp only [decide_eq_false_iff_not, GoTime.utc_ns] at hk ⊢
      omega
  rw [List.filter_eq_self.mpr hall]
  simp

end Sqlitestore

/-! ### The claims -/

deriving instance DecidableEq for Except

/-- C1: after every sequence of `Save`, `Delete` and `DeleteExpired` calls on
a freshly opened embedded store, every stored record with a non-zero expiry
has exactly one expiry-index entry — the one keyed by its `(expiresAt, id)`
composite key — and every stored record with a zero expiry has none; in
particular, re-saving an id with a changed or removed expiry leaves no stale
entry behind. -/
theorem c1_expiry_index_consistency (ops : List Boltstore.Op) :
    Boltstore.expiryIndexConsistent (Boltstore.runOps ops) :=
  (Boltstore.inv_runOps ops).consistent

/-- C1 witness: the spec's own re-save scenario — save `"c1"` expiring at
`now+1h`, re-save it with no expiry, sweep at `now+2h`. -/
theorem c1_expiry_index_consistency_witness :
    Boltstore.expiryIndexConsistent (Boltstore.runOps
      [.save (some ⟨"c1", "x", "go", ⟨0, "UTC"⟩, ⟨3600000000000, "UTC"⟩, "", 1⟩),
       .save (some ⟨"c1", "x", "go", ⟨0, "UTC"⟩, GoTime.zero, "", 1⟩),
       .sweep ⟨7200000000000, "UTC"⟩]) :=
  c1_expiry_index_consistency
    [.save (some ⟨"c1", "x", "go", ⟨0, "UTC"⟩, ⟨3600000000000, "UTC"⟩, "", 1⟩),
     .save (some ⟨"c1", "x", "go", ⟨0, "UTC"⟩, GoTime.zero, "", 1⟩),
     .sweep ⟨7200000000000, "UTC"⟩]

/-- C2 counterexample: the claim as stated fails on the embedded backend for
a pre-epoch expiry.  A record expiring 1 ns before the Unix epoch has a
non-zero `expiresAt` chronologically before the cutoff, yet
`DeleteExpired` removes 0 records and the record is still retrievable: the
uint64 cast of its negative `UnixNano` produces an enormous index key, so
the ascending scan stops before reaching it. -/
theorem c2_counterexample :
    Paste.HasExpiration ⟨"a", "x", "go", ⟨0, "UTC"⟩, ⟨-1, "UTC"⟩, "", 1⟩ = true ∧
    ((⟨-1, "UTC"⟩ : GoTime).ns ≤ (⟨10, "UTC"⟩ : GoTime).ns) ∧
    (Boltstore.DeleteExpired
      (Boltstore.Save Boltstore.State.empty
        (some ⟨"a", "x", "go", ⟨0, "UTC"⟩, ⟨-1, "UTC"⟩, "", 1⟩)).1
      ⟨10, "UTC"⟩).2 = 0 ∧
    Boltstore.Get (Boltstore.DeleteExpired
      (Boltstore.Save Boltstore.State.empty
        (some ⟨"a", "x", "go", ⟨0, "UTC"⟩, ⟨-1, "UTC"⟩, "", 1⟩)).1
      ⟨10, "UTC"⟩).1 "a" =
      .ok (normalizePaste ⟨"a", "x", "go", ⟨0, "UTC"⟩, ⟨-1, "UTC"⟩, "", 1⟩) := by
  decide

/-- C2 (amended): on a well-formed embedded store whose stored expiry
timestamps and cutoff are at or after the Unix epoch (within `int64` range),
`DeleteExpired (before)` removes exactly the records whose `expiresAt` is
non-zero and chronologically at or before `before`, returns their number,
and — with no range restriction at all — never touches a record with zero
`expiresAt`, whatever the cutoff; the SQLite backend satisfies the original
statement on every table and cutoff. -/
theorem c2_delete_expired_exact {s : Boltstore.State} (hs : Boltstore.Inv s)
    {before : GoTime} (hb : before.InRange)
    (hr : ∀ id p, aget s.pastes id = some p → p.HasExpiration = true → p.ExpiresAt.InRange) :
    (∀ id p, aget s.pastes id = some p →
       aget (Boltstore.DeleteExpired s before).1.pastes id =
         (if Boltstore.recExpired before p = true then none else some p)) ∧
    (∀ (cutoff : GoTime) id p, aget s.pastes id = some p → p.HasExpiration = false →
       aget (Boltstore.DeleteExpired s cutoff).1.pastes id = some p) ∧
    (Boltstore.DeleteExpired s before).2 =
      (s.pastes.filter (fun e => Boltstore.recExpired before e.2)).length ∧
    (∀ (rows : Sqlitestore.Table) (b : GoTime),
       (Sqlitestore.DeleteExpired rows b).1 =
         rows.filter (fun r => !Sqlitestore.rowExpired b r) ∧
       (Sqlitestore.DeleteExpired rows b).2 =
         (rows.filter (fun r => Sqlitestore.rowExpired b r)).length) := by
  refine ⟨?_, ?_, ?_, ?_⟩
  · intro id p hp
    exact Boltstore.sweep_state hs hb hr hp
  · intro cutoff id p hp hnexp
    exact Boltstore.sweep_keeps_noexp hs cutoff hp hnexp
  · exact Boltstore.sweep_count hs hb hr
  · intro rows b
    exact Sqlitestore.DeleteExpired_exact rows b

/-- C2 witness: the amended theorem applied to the store holding one record
expiring at 5 ns past the epoch, with cutoff 10 ns past the epoch. -/
theorem c2_delete_expired_exact_witness :
    (∀ id p, aget (Boltstore.Save Boltstore.State.empty
        (some ⟨"d", "x", "go", ⟨0, "UTC"⟩, ⟨5, "UTC"⟩, "", 1⟩)).1.pastes id = some p →
       aget (Boltstore.DeleteExpired (Boltstore.Save Boltstore.State.empty
           (some ⟨"d", "x", "go", ⟨0, "UTC"⟩, ⟨5, "UTC"⟩, "", 1⟩)).1
         ⟨10, "UTC"⟩).1.pastes id =
         (if Boltstore.recExpired ⟨10, "UTC"⟩ p = true then none else some p)) ∧
    (∀ (cutoff : GoTime) id p, aget (Boltstore.Save Boltstore.State.empty
        (some ⟨"d", "x", "go", ⟨0, "UTC"⟩, ⟨5, "UTC"⟩, "", 1⟩)).1.pastes id = some p →
       p.HasExpiration = false →
       aget (Boltstore.DeleteExpired (Boltstore.Save Boltstore.State.empty
           (some ⟨"d", "x", "go", ⟨0, "UTC"⟩, ⟨5, "UTC"⟩, "", 1⟩)).1
         cutoff).1.pastes id = some p) ∧
    (Boltstore.DeleteExpired (Boltstore.Save Boltstore.State.empty
        (some ⟨"d", "x", "go", ⟨0, "UTC"⟩, ⟨5, "UTC"⟩, "", 1⟩)).1 ⟨10, "UTC"⟩).2 =
      ((Boltstore.Save Boltstore.State.empty
        (some ⟨"d", "x", "go", ⟨0, "UTC"⟩, ⟨5, "UTC"⟩, "", 1⟩)).1.pastes.filter
          (fun e => Boltstore.recExpired ⟨10, "UTC"⟩ e.2)).length ∧
    (∀ (rows : Sqlitestore.Table) (b : GoTime),
       (Sqlitestore.DeleteExpired rows b).1 =
         rows.filter (fun r => !Sqlitestore.rowExpired b r) ∧
       (Sqlitestore.DeleteExpired rows b).2 =
         (rows.filter (fun r => Sqlitestore.rowExpired b r)).length) :=
  c2_delete_expired_exact (Boltstore.Inv.empty.save _) ⟨by norm_num, by norm_num⟩
    (by
      intro id p hp
      rw [Boltstore.Save_pastes] at hp
      rw [aget_aput] at hp
      by_cases hd : (normalizePaste ⟨"d", "x", "go", ⟨0, "UTC"⟩, ⟨5, "UTC"⟩, "", 1⟩).ID = id
      · rw [if_pos hd] at hp
        have hpp : normalizePaste ⟨"d", "x", "go", ⟨0, "UTC"⟩, ⟨5, "UTC"⟩, "", 1⟩ = p := by
          injection hp
        intro _
        rw [← hpp]
        exact ⟨by decide, by decide⟩
      · rw [if_neg hd] at hp
        cases hp)

/-- C3 counterexample: the claim as stated fails for timestamps before the
Unix epoch.  1 ns before the epoch is chronologically strictly earlier than
the epoch itself, but its key (uint64 cast of a negative `UnixNano`) starts
with byte 255 and sorts after the epoch's key. -/
theorem c3_counterexample :
    (⟨-1, "UTC"⟩ : GoTime).ns < (⟨0, "UTC"⟩ : GoTime).ns ∧
    bytesLt (Boltstore.expireKey ⟨-1, "UTC"⟩ "a") (Boltstore.expireKey ⟨0, "UTC"⟩ "b")
      = false := by
  decide

/-- C3 (amended): for timestamps at or after the Unix epoch (within `int64`
range), the composite expiry key orders lexicographically exactly as the
timestamps order chronologically — a strictly earlier timestamp gives a
strictly smaller key whatever the two ids are — and at equal timestamps
distinct ids yield distinct keys, so the sweep's early stop is sound on such
keys. -/
theorem c3_expire_key_order {t1 t2 : GoTime} (h1 : t1.InRange) (h2 : t2.InRange)
    (id1 id2 : String) :
    (t1.ns < t2.ns →
      bytesLt (Boltstore.expireKey t1 id1) (Boltstore.expireKey t2 id2) = true) ∧
    (t1.ns = t2.ns → id1 ≠ id2 →
      Boltstore.expireKey t1 id1 ≠ Boltstore.expireKey t2 id2) := by
  constructor
  · intro hlt
    apply expireKey_lt ?_ id1 id2
    rw [Boltstore.toTimestamp_of_inRange h1, Boltstore.toTimestamp_of_inRange h2]
    have h3 := h1.1
    omega
  · intro _ hne hc
    exact hne (expireKey_inj hc).2

/-- C3 witness: 1 ns and 2 ns past the epoch, with ids `"a"` and `"b"`. -/
theorem c3_expire_key_order_witness :
    ((⟨1, "UTC"⟩ : GoTime).ns < (⟨2, "UTC"⟩ : GoTime).ns →
      bytesLt (Boltstore.expireKey ⟨1, "UTC"⟩ "a") (Boltstore.expireKey ⟨2, "UTC"⟩ "b")
        = true) ∧
    ((⟨1, "UTC"⟩ : GoTime).ns = (⟨2, "UTC"⟩ : GoTime).ns → "a" ≠ "b" →
      Boltstore.expireKey ⟨1, "UTC"⟩ "a" ≠ Boltstore.expireKey ⟨2, "UTC"⟩ "b") :=
  c3_expire_key_order ⟨by norm_num, by norm_num⟩ ⟨by norm_num, by norm_num⟩ "a" "b"

/-- C4: in both backends, saving a non-nil record and getting its id
succeeds and returns the record with every field equal up to the UTC
normalization of `CreatedAt` and `ExpiresAt`; and whatever record previously
occupied the id, the stored state afterwards is exactly the new normalized
record — a full overwrite. -/
theorem c4_save_get_round_trip (s : Boltstore.State) (rows : Sqlitestore.Table) (p0 : Paste) :
    (Boltstore.Save s (some p0)).2 = .ok (normalizePaste p0) ∧
    Boltstore.Get (Boltstore.Save s (some p0)).1 p0.ID = .ok (normalizePaste p0) ∧
    aget (Boltstore.Save s (some p0)).1.pastes p0.ID = some (normalizePaste p0) ∧
    (Sqlitestore.Save rows (some p0)).2 = .ok (normalizePaste p0) ∧
    Sqlitestore.Get (Sqlitestore.Save rows (some p0)).1 p0.ID = .ok (normalizePaste p0) := by
  have hget : aget (Boltstore.Save s (some p0)).1.pastes p0.ID = some (normalizePaste p0) := by
    rw [Boltstore.Save_pastes, aget_aput,
      if_pos (show (normalizePaste p0).ID = p0.ID from rfl)]
  refine ⟨rfl, ?_, hget, rfl, Sqlitestore.Get_Save rows p0⟩
  unfold Boltstore.Get
  rw [hget]

/-- C5 counterexample: the claim as stated fails for a pre-epoch second
cutoff.  With one record expiring 5 ns past the epoch, `DeleteExpired` at
3 ns removes 0 records; an immediately following `DeleteExpired` at 1 ns
before the epoch — a chronologically earlier cutoff — removes 1 record
instead of 0, because the uint64 cast turns the earlier cutoff into an
enormous one. -/
theorem c5_counterexample :
    ((⟨-1, "UTC"⟩ : GoTime).ns ≤ (⟨3, "UTC"⟩ : GoTime).ns) ∧
    (Boltstore.DeleteExpired
       (Boltstore.DeleteExpired
         (Boltstore.Save Boltstore.State.empty
           (some ⟨"a", "x", "go", ⟨0, "UTC"⟩, ⟨5, "UTC"⟩, "", 1⟩)).1
         ⟨3, "UTC"⟩).1
       ⟨-1, "UTC"⟩).2 = 1 := by
  decide

/-- C5 (amended): on a well-formed embedded store, after `DeleteExpired (t)`
an immediately following `DeleteExpired (t')` with `t' ≤ t`, both cutoffs at
or after the Unix epoch (within `int64` range), returns 0 and leaves the
state unchanged; the SQLite backend needs no range restriction. -/
theorem c5_sweep_idempotent {s : Boltstore.State} (hs : Boltstore.Inv s) {t t' : GoTime}
    (ht : t.InRange) (ht' : t'.InRange) (hle : t'.ns ≤ t.ns) :
    Boltstore.DeleteExpired (Boltstore.DeleteExpired s t).1 t' =
      ((Boltstore.DeleteExpired s t).1, 0) ∧
    (∀ (rows : Sqlitestore.Table),
      Sqlitestore.DeleteExpired (Sqlitestore.DeleteExpired rows t).1 t' =
        ((Sqlitestore.DeleteExpired rows t).1, 0)) :=
  ⟨Boltstore.sweep_idempotent hs ht ht' hle,
   fun rows => Sqlitestore.DeleteExpired_idem rows hle⟩

/-- C5 witness: sweeps at 3 ns and then 1 ns past the epoch on the store
holding one record expiring at 2 ns. -/
theorem c5_sweep_idempotent_witness :
    (Boltstore.DeleteExpired
        (Boltstore.DeleteExpired (Boltstore.Save Boltstore.State.empty
          (some ⟨"a", "x", "go", ⟨0, "UTC"⟩, ⟨2, "UTC"⟩, "", 1⟩)).1 ⟨3, "UTC"⟩).1 ⟨1, "UTC"⟩ =
      ((Boltstore.DeleteExpired (Boltstore.Save Boltstore.State.empty
          (some ⟨"a", "x", "go", ⟨0, "UTC"⟩, ⟨2, "UTC"⟩, "", 1⟩)).1 ⟨3, "UTC"⟩).1, 0)) ∧
    (∀ (rows : Sqlitestore.Table),
      Sqlitestore.DeleteExpired (Sqlitestore.DeleteExpired rows ⟨3, "UTC"⟩).1 ⟨1, "UTC"⟩ =
        ((Sqlitestore.DeleteExpired rows ⟨3, "UTC"⟩).1, 0)) :=
  c5_sweep_idempotent (Boltstore.Inv.empty.save _)
    ⟨by norm_num, by norm_num⟩ ⟨by norm_num, by norm_num⟩ (by norm_num)

/-- C6: deleting an id for which no record exists fails with `notFound` in
both backends and returns the store completely unchanged — the existence
check precedes any mutation. -/
theorem c6_delete_missing {s : Boltstore.State} {rows : Sqlitestore.Table} {id : String}
    (hb : aget s.pastes id = none) (hq : Sqlitestore.findRow rows id = none) :
    Boltstore.Delete s id = (s, .error .notFound) ∧
    Sqlitestore.Delete rows id = (rows, .error .notFound) :=
  ⟨Boltstore.Delete_none hb, Sqlitestore.findRow_none_delete hq⟩

/-- C6 witness: `Delete "nope"` on the empty store of each backend. -/
theorem c6_delete_missing_witness :
    Boltstore.Delete Boltstore.State.empty "nope" =
      (Boltstore.State.empty, .error .notFound) ∧
    Sqlitestore.Delete [] "nope" = ([], .error .notFound) :=
  c6_delete_missing rfl rfl

/-- C7: in both backends, `Save` of a nil record fails with the
invalid-argument (nil paste) error and leaves the store unmodified. -/
theorem c7_save_nil (s : Boltstore.State) (rows : Sqlitestore.Table) :
    Boltstore.Save s none = (s, .error .nilPaste) ∧
    Sqlitestore.Save rows none = (rows, .error .nilPaste) :=
  ⟨rfl, rfl⟩

/-- C8: a janitor tick is a total function of the sweep outcome (no error
escapes, no panic): an error outcome yields exactly one error log line when
a logger is present and nothing otherwise; a zero-removal success logs
nothing even with a logger; a positive removal logs exactly one line when a
logger is present and nothing otherwise; and the loop proceeds past an
erroring tick to the remaining ticks. -/
theorem c8_janitor_tick (logger : Option Unit) (e : String) (n : Nat)
    (rest : List (Except String Nat)) :
    Httpserver.cleanOnce (.error e) logger =
      (if logger.isSome then [.errLog e] else []) ∧
    Httpserver.cleanOnce (.ok 0) logger = [] ∧
    Httpserver.cleanOnce (.ok (n + 1)) logger =
      (if logger.isSome then [.infoLog "janitor removed expired pastes" (n + 1)] else []) ∧
    Httpserver.janitorRun ((.error e) :: rest) logger =
      Httpserver.cleanOnce (.error e) logger ++ Httpserver.janitorRun rest logger := by
  refine ⟨?_, rfl, ?_, rfl⟩
  · cases logger <;> rfl
  · cases logger <;> simp [Httpserver.cleanOnce]

/-- C9 counterexample: the per-call timeout is not shorter than the tick
interval for every argument — `StartJanitor` accepts a positive 1-second
interval unchanged, which is below the 5-second sweep timeout. -/
theorem c9_counterexample :
    ¬ ∀ interval : Int,
        Httpserver.cleanTimeoutNs < Httpserver.effectiveInterval interval := by
  intro h
  have h1 := h 1000000000
  simp only [Httpserver.effectiveInterval, Httpserver.cleanTimeoutNs,
    Httpserver.defaultIntervalNs] at h1
  rw [if_neg (by norm_num)] at h1
  norm_num at h1

/-- C9 (amended): the 5-second per-invocation timeout is strictly shorter
than the effective tick interval whenever the interval argument is
non-positive (so the 1-minute default applies) or itself exceeds the
timeout; `main` passes one minute, which satisfies this. -/
theorem c9_janitor_timeout {interval : Int}
    (h : interval ≤ 0 ∨ Httpserver.cleanTimeoutNs < interval) :
    Httpserver.cleanTimeoutNs < Httpserver.effectiveInterval interval := by
  unfold Httpserver.effectiveInterval
  rcases h with h | h
  · rw [if_pos h]
    norm_num [Httpserver.cleanTimeoutNs, Httpserver.defaultIntervalNs]
  · rw [if_neg (by
      simp only [Httpserver.cleanTimeoutNs] at h
      omega)]
    exact h

/-- C9 witness: the one-minute interval `main` actually passes. -/
theorem c9_janitor_timeout_witness :
    ((60000000000 : Int) ≤ 0 ∨ Httpserver.cleanTimeoutNs < 60000000000) ∧
    Httpserver.cleanTimeoutNs < Httpserver.effectiveInterval 60000000000 :=
  ⟨Or.inr (by norm_num [Httpserver.cleanTimeoutNs]),
   c9_janitor_timeout (Or.inr (by norm_num [Httpserver.cleanTimeoutNs]))⟩

/-- C10: both backends' `Save` mutates the caller's record in place before
persisting: the record handed back is the argument with `CreatedAt` and
`ExpiresAt` replaced by their UTC equivalents and every other field exactly
as passed. -/
theorem c10_save_mutates_argument (s : Boltstore.State) (rows : Sqlitestore.Table)
    (p : Paste) :
    (Boltstore.Save s (some p)).2 =
      .ok { p with CreatedAt := p.CreatedAt.UTC, ExpiresAt := p.ExpiresAt.UTC } ∧
    (Sqlitestore.Save rows (some p)).2 =
      .ok { p with CreatedAt := p.CreatedAt.UTC, ExpiresAt := p.ExpiresAt.UTC } :=
  ⟨rfl, rfl⟩

end TinyPaste
